import Mathlib

/-!
# scull: a sparse in-memory byte store (shallow embedding of `scull.c`)

The device keeps its bytes in a chain of quantum sets.  Every node of the chain owns an
optional array of `qset` slots and every slot owns an optional block of `quantum` bytes.

Conventions of the embedding

* `int` values are `Int`s that are wrapped to 32 bits by `toInt32` at every `int`
  assignment of the source (`itemsize`, `item`, `rest`, `s_pos`, `q_pos`).
* An LP64 kernel is assumed: `long`, `size_t`, `unsigned long` and `loff_t` have 64 bits.
  `*f_pos`, `count` and `dev->size` are such quantities and are natural numbers here, with
  `0 ≤ *f_pos`.  The sum `*f_pos + count` of line 128 is taken modulo `2 ^ 64`, as the
  unsigned addition of C takes it (see `clamp`).  The advance `*f_pos += count` adds a count
  that is already clipped to the block, so it is a plain sum.
* A linked list `dev->data -> next -> ...` is a `List`; a node pointer is an index in it.
* What C leaves undefined (division by zero, a slot index outside the slot array, a copy
  through a null block pointer or past the end of a block) is the result `none`.
* `kmalloc`, the lock and the user buffers belong to the kernel; they are modelled by
  `Kernel`, the flag `interrupted` and the readable bytes / writable capacity of the buffer.
-/

namespace Scull

/-- One `char` of a block. The driver only moves bytes, it never inspects them. -/
abbrev Byte := Nat

/-- Conversion to a C `int`: two's complement wrap to 32 bits. -/
def toInt32 (x : Int) : Int := (x + 2 ^ 31) % 2 ^ 32 - 2 ^ 31

/-- Conversion of an `int` to `size_t` (64 bits, unsigned). -/
def toSizeT (x : Int) : Nat := (x % 2 ^ 64).toNat

def ERESTARTSYS : Int := 512
def EFAULT : Int := 14
def ENOMEM : Int := 12

/-- A block: the bytes of one `kmalloc(quantum)` area. -/
abbrev Block := List Byte

/-- The `struct scull_qset` node: `data` is the slot array (`none` is `NULL`), `next` is the
position in the chain. -/
structure scull_qset where
  data : Option (List (Option Block))
deriving DecidableEq, Repr

/-- The `struct scull_dev` fields used by the storage engine. -/
structure scull_dev where
  data : List scull_qset
  quantum : Int
  qset : Int
  size : Nat
deriving DecidableEq, Repr

/-- The allocator as the driver sees it: `grant j` tells whether the `j`-th `kmalloc` call
succeeds, `junk j i` is byte `i` of the memory it returns (kmalloc does not clear it),
`calls` counts the calls made so far and `freed` the objects given back by `kfree`. -/
structure Kernel where
  grant : Nat → Bool
  junk : Nat → Nat → Byte
  calls : Nat
  freed : Nat

/-- Model of `kmalloc(size, GFP_KERNEL)`: success flag and the allocator afterwards. A negative
`int` size converts to a `size_t` beyond any allocatable size. -/
def kmalloc (k : Kernel) (size : Int) : Bool × Kernel :=
  (decide (0 ≤ size) && k.grant k.calls, { k with calls := k.calls + 1 })

/-- Contents of the area handed out by the next `kmalloc(n)`. -/
def fresh_block (k : Kernel) (n : Nat) : Block := (List.range n).map (k.junk k.calls)

/-- Model of `copy_from_user(dst, buf, count)` for a destination block `dst` and a user buffer
with readable bytes `buf`: the new block and the number of bytes that could not be copied
(the kernel zero-fills that tail of the destination). -/
def copy_from_user (dst : Block) (buf : List Byte) (count : Nat) : Block × Nat :=
  (buf.take count ++ List.replicate (count - buf.length) 0 ++ dst.drop count, count - buf.length)

/-- Model of `copy_to_user(buf, src, count)` for a user buffer with `cap` writable bytes: the
bytes stored in the user buffer and the number of bytes that could not be copied. -/
def copy_to_user (cap : Nat) (src : List Byte) (count : Nat) : List Byte × Nat :=
  ((src.take count).take cap, count - cap)

/-- A freshly allocated and zeroed `struct scull_qset`. -/
def empty_qset : scull_qset := ⟨none⟩

/-- Number of iterations of `while (n--)` for an `int n`: `n` for `n ≥ 0`; a negative `n` is
decremented through `INT_MIN` (the kernel is built with wrapping signed arithmetic) and
reaches 0 after `2^32 + n` iterations. -/
def loop_count (n : Int) : Nat := (n % 2 ^ 32).toNat

/-- The loop of `scull_follow` (lines 98-107): `i` is the node `qs` points to. -/
def follow_walk (k : Kernel) (chain : List scull_qset) (i : Nat) :
    Nat → Option Nat × List scull_qset × Kernel
  | 0 => (some i, chain, k)
  | steps + 1 =>
    if i + 1 < chain.length then follow_walk k chain (i + 1) steps
    else
      let a := kmalloc k 16
      if a.1 then follow_walk a.2 (chain ++ [empty_qset]) (i + 1) steps
      else (none, chain, a.2)

/-- The function `scull_follow` (lines 85-109): the node reached (`none` is `NULL`), the device
and the allocator afterwards. -/
def scull_follow (k : Kernel) (dev : scull_dev) (n : Int) : Option Nat × scull_dev × Kernel :=
  match dev.data with
  | [] =>
    let a := kmalloc k 16
    if a.1 then
      let r := follow_walk a.2 [empty_qset] 0 (loop_count n)
      (r.1, { dev with data := r.2.1 }, r.2.2)
    else (none, dev, a.2)
  | _ :: _ =>
    let r := follow_walk k dev.data 0 (loop_count n)
    (r.1, { dev with data := r.2.1 }, r.2.2)

/-- Number of non-null pointers released by the loop of `scull_trim` (lines 51-62). -/
def trim_frees (qset : Int) : List scull_qset → Nat
  | [] => 0
  | node :: rest =>
    (match node.data with
      | none => 0
      | some arr => ((arr.take qset.toNat).filter Option.isSome).length + 1)
    + 1 + trim_frees qset rest

/-- The function `scull_trim` (lines 45-70); `scull_quantum` and `scull_qset` are the configured
defaults, whose values come from `scull.h`. -/
def scull_trim (scull_quantum scull_qset : Int) (k : Kernel) (dev : scull_dev) :
    Int × scull_dev × Kernel :=
  (0, { data := [], quantum := scull_quantum, qset := scull_qset, size := 0 },
    { k with freed := k.freed + trim_frees dev.qset dev.data })

/-- The function `scull_open` (lines 72-82); `O_ACCMODE` is 3 and `O_WRONLY` is 1. -/
def scull_open (scull_quantum scull_qset : Int) (k : Kernel) (dev : scull_dev) (f_flags : Nat) :
    Int × scull_dev × Kernel :=
  if f_flags % 4 = 1 then (0, (scull_trim scull_quantum scull_qset k dev).2)
  else (0, dev, k)

/-- The device as `scull_init` leaves it (lines 265-281): zero-filled by `memset`. -/
def scull_init_dev : scull_dev := { data := [], quantum := 0, qset := 0, size := 0 }

/-- Address of an offset: group, slot and byte inside the block. -/
structure Addr where
  item : Int
  s_pos : Int
  q_pos : Int
deriving DecidableEq, Repr

/-- Lines 118-119 and 131-134 of `scull_read`; `none` when a division by zero is executed. -/
def scull_read_addr (quantum qset : Int) (f_pos : Nat) : Option Addr :=
  let itemsize := toInt32 (quantum * qset)
  if itemsize = 0 then none
  else
    let item := toInt32 (Int.tdiv f_pos itemsize)
    let rest := toInt32 (Int.tmod f_pos itemsize)
    if quantum = 0 then none
    else some ⟨item, toInt32 (Int.tdiv rest quantum), toInt32 (Int.tmod rest quantum)⟩

/-- Lines 162-163 and 170-173 of `scull_write`; `none` when a division by zero is executed. -/
def scull_write_addr (quantum qset : Int) (f_pos : Nat) : Option Addr :=
  let itemsize := toInt32 (quantum * qset)
  if itemsize = 0 then none
  else
    let item := toInt32 (Int.tdiv f_pos itemsize)
    let rest := toInt32 (Int.tmod f_pos itemsize)
    if quantum = 0 then none
    else some ⟨item, toInt32 (Int.tdiv rest quantum), toInt32 (Int.tmod rest quantum)⟩

/-- The element `arr[idx]` of a slot array; `none` when `idx` is outside the array. -/
def slot (arr : List (Option Block)) (idx : Int) : Option (Option Block) :=
  if idx < 0 then none else arr[idx.toNat]?

/-- The clipping `if (count > quantum - q_pos) count = quantum - q_pos;` (the `int` on the right
is converted to `size_t` for the comparison). -/
def clip (count : Nat) (quantum q_pos : Int) : Nat :=
  if count > toSizeT (toInt32 (quantum - q_pos)) then toSizeT (toInt32 (quantum - q_pos))
  else count

/-- The clamping `if (*f_pos + count > dev->size) count = dev->size - *f_pos;` of lines
128-129. The sum of a `loff_t` and a `size_t` is an unsigned 64-bit sum: it wraps at
`2 ^ 64`. -/
def clamp (count f_pos size : Nat) : Nat :=
  if (f_pos + count) % 2 ^ 64 > size then size - f_pos else count

/-- What `scull_read` hands back: the return value, the bytes stored in the user buffer, the
device, `*f_pos` and the allocator. -/
structure ReadResult where
  ret : Int
  out : List Byte
  dev : scull_dev
  f_pos : Nat
  k : Kernel

/-- The function `scull_read` (lines 112-154). `cap` is the number of writable bytes of the
user buffer, `interrupted` the outcome of `mutex_lock_interruptible`. -/
def scull_read (k : Kernel) (interrupted : Bool) (dev : scull_dev) (cap count f_pos : Nat) :
    Option ReadResult :=
  if interrupted then some ⟨-ERESTARTSYS, [], dev, f_pos, k⟩
  else if f_pos ≥ dev.size then some ⟨0, [], dev, f_pos, k⟩
  else
    let count1 := clamp count f_pos dev.size
    match scull_read_addr dev.quantum dev.qset f_pos with
    | none => none
    | some a =>
      let f := scull_follow k dev a.item
      match f.1 with
      | none => some ⟨0, [], f.2.1, f_pos, f.2.2⟩
      | some i =>
        match f.2.1.data[i]? with
        | none => none
        | some node =>
          match node.data with
          | none => some ⟨0, [], f.2.1, f_pos, f.2.2⟩
          | some arr =>
            match slot arr a.s_pos with
            | none => none
            | some none => some ⟨0, [], f.2.1, f_pos, f.2.2⟩
            | some (some blk) =>
              let count2 := clip count1 dev.quantum a.q_pos
              if a.q_pos < 0 ∨ a.q_pos.toNat + count2 > blk.length then none
              else
                let c := copy_to_user cap (blk.drop a.q_pos.toNat) count2
                if c.2 ≠ 0 then some ⟨-EFAULT, c.1, f.2.1, f_pos, f.2.2⟩
                else some ⟨count2, c.1, f.2.1, f_pos + count2, f.2.2⟩

/-- What `scull_write` hands back: the return value, the device, `*f_pos` and the allocator. -/
structure WriteResult where
  ret : Int
  dev : scull_dev
  f_pos : Nat
  k : Kernel

/-- Lines 179-185 of `scull_write`: the slot array of the node, allocated and cleared when it
is absent (`none` when that allocation fails). -/
def write_slots (k : Kernel) (qset : Int) (node : scull_qset) :
    Option (List (Option Block)) × Kernel :=
  match node.data with
  | some arr => (some arr, k)
  | none =>
    let a := kmalloc k (qset * 8)
    if a.1 then (some (List.replicate qset.toNat none), a.2) else (none, a.2)

/-- Lines 187-192 of `scull_write`: the block of the slot, allocated (and not cleared) when it
is absent (`none` when that allocation fails). -/
def write_block (k : Kernel) (quantum : Int) (b : Option Block) : Option Block × Kernel :=
  match b with
  | some blk => (some blk, k)
  | none =>
    let a := kmalloc k quantum
    if a.1 then (some (fresh_block k quantum.toNat), a.2) else (none, a.2)

/-- The chain with the slot array of node `i` replaced. -/
def set_slots (chain : List scull_qset) (i : Nat) (arr : List (Option Block)) :
    List scull_qset :=
  chain.set i ⟨some arr⟩

/-- The function `scull_write` (lines 157-211). `buf` holds the readable bytes of the user
buffer, `interrupted` is the outcome of `mutex_lock_interruptible`. The slot array and the
block of slot `s_pos` are stored back into the node (a block that was already there is stored
back unchanged); the copy of line 197 goes to the block of slot `s_pos + q_pos`. -/
def scull_write (k : Kernel) (interrupted : Bool) (dev : scull_dev) (buf : List Byte)
    (count f_pos : Nat) : Option WriteResult :=
  if interrupted then some ⟨-ERESTARTSYS, dev, f_pos, k⟩
  else
    match scull_write_addr dev.quantum dev.qset f_pos with
    | none => none
    | some a =>
      let f := scull_follow k dev a.item
      match f.1 with
      | none => some ⟨-ENOMEM, f.2.1, f_pos, f.2.2⟩
      | some i =>
        match f.2.1.data[i]? with
        | none => none
        | some node =>
          let s := write_slots f.2.2 dev.qset node
          match s.1 with
          | none => some ⟨-ENOMEM, f.2.1, f_pos, s.2⟩
          | some arr =>
            match slot arr a.s_pos with
            | none => none
            | some b =>
              let w := write_block s.2 dev.quantum b
              match w.1 with
              | none =>
                some ⟨-ENOMEM, { f.2.1 with data := set_slots f.2.1.data i arr }, f_pos, w.2⟩
              | some blk0 =>
                let arr1 := arr.set a.s_pos.toNat (some blk0)
                let count1 := clip count dev.quantum a.q_pos
                -- line 197: the destination is `dptr->data[s_pos + q_pos]`
                let d := toInt32 (a.s_pos + a.q_pos)
                match slot arr1 d with
                | none => none
                | some none =>
                  if count1 = 0 then
                    some ⟨0, { f.2.1 with
                                data := set_slots f.2.1.data i arr1,
                                size := if f.2.1.size < f_pos then f_pos else f.2.1.size },
                          f_pos, w.2⟩
                  else none
                | some (some blk) =>
                  if count1 > blk.length then none
                  else
                    let c := copy_from_user blk buf count1
                    let arr2 := arr1.set d.toNat (some c.1)
                    if c.2 ≠ 0 then
                      some ⟨-EFAULT, { f.2.1 with data := set_slots f.2.1.data i arr2 }, f_pos, w.2⟩
                    else
                      some ⟨count1,
                            { f.2.1 with
                                data := set_slots f.2.1.data i arr2,
                                size := if f.2.1.size < f_pos + count1 then f_pos + count1
                                        else f.2.1.size },
                            f_pos + count1, w.2⟩

/-! ## Vocabulary of the statements -/

/-- Largest value of a C `int`. -/
def INT_MAX : Int := 2 ^ 31 - 1

/-- The allocator never refuses a request. -/
def always_grants (k : Kernel) : Prop := ∀ j, k.grant j = true

/-- The chain padded with empty nodes up to `m` nodes. -/
def pad_chain (chain : List scull_qset) (m : Nat) : List scull_qset :=
  chain ++ List.replicate (m - chain.length) empty_qset

/-- The block in slot `a.s_pos` of the group that `scull_follow (.., a.item)` reaches, when the
group, its slot array and the block are all present. -/
def block_at (dev : scull_dev) (a : Addr) : Option Block :=
  match dev.data[loop_count a.item]? with
  | none => none
  | some node =>
    match node.data with
    | none => none
    | some arr =>
      match slot arr a.s_pos with
      | some (some blk) => some blk
      | _ => none

/-- A present block has `quantum` bytes. -/
def block_ok (quantum : Int) (b : Option Block) : Bool :=
  match b with
  | none => true
  | some blk => blk.length == quantum.toNat

/-- A slot array has `qset` slots and its blocks have `quantum` bytes. -/
def slots_ok (quantum qset : Int) (arr : List (Option Block)) : Bool :=
  arr.length == qset.toNat && arr.all (block_ok quantum)

/-- A present slot array of a node is as large as the device says. -/
def node_ok (quantum qset : Int) (node : scull_qset) : Bool :=
  match node.data with
  | none => true
  | some arr => slots_ok quantum qset arr

/-- The layout invariant of the data model: every slot array has `qset` slots and every
block has `quantum` bytes. -/
def well_formed (dev : scull_dev) : Bool := dev.data.all (node_ok dev.quantum dev.qset)

/-- A call of the read or the write method at an explicit offset. -/
inductive Call where
  | read (interrupted : Bool) (cap count f_pos : Nat)
  | write (interrupted : Bool) (buf : List Byte) (count f_pos : Nat)

/-- What a call returned: whether it was a write, its start offset, its return value and the
bytes it stored in the user buffer (none for a write). -/
structure Returned where
  is_write : Bool
  start : Nat
  ret : Int
  out : List Byte
deriving DecidableEq, Repr

/-- A sequence of calls on a device, with the record of what every call returned (oldest
first); `none` as soon as a call has no defined result. -/
def run (k : Kernel) (dev : scull_dev) : List Call → Option (scull_dev × Kernel × List Returned)
  | [] => some (dev, k, [])
  | Call.read intr cap count p :: rest =>
    match scull_read k intr dev cap count p with
    | none => none
    | some r =>
      match run r.k r.dev rest with
      | none => none
      | some t => some (t.1, t.2.1, ⟨false, p, r.ret, r.out⟩ :: t.2.2)
  | Call.write intr buf count p :: rest =>
    match scull_write k intr dev buf count p with
    | none => none
    | some r =>
      match run r.k r.dev rest with
      | none => none
      | some t => some (t.1, t.2.1, ⟨true, p, r.ret, []⟩ :: t.2.2)

/-- The maximum of `start + ret` over the successful writes of a record, and 0 when there is
none. -/
def high_mark : List Returned → Nat
  | [] => 0
  | o :: rest =>
    if o.is_write ∧ 0 ≤ o.ret then max (o.start + o.ret.toNat) (high_mark rest)
    else high_mark rest

/-- The access-mode mask of `f_flags` (`asm-generic/fcntl.h`). -/
def O_ACCMODE : Nat := 3

/-- The read-only access mode. -/
def O_RDONLY : Nat := 0

/-- The write-only access mode. -/
def O_WRONLY : Nat := 1

/-- The read-write access mode. -/
def O_RDWR : Nat := 2

/-- The block in slot `s` of group `i` of a chain, when the group, its slot array and the
block are all present. -/
def block_of (chain : List scull_qset) (i s : Nat) : Option Block :=
  match chain[i]? with
  | none => none
  | some node =>
    match node.data with
    | none => none
    | some arr => (arr[s]?).join

/-- No `kmalloc` call made between the allocator states `k` and `k1` was refused. -/
def attempted_ok (k k1 : Kernel) : Prop := ∀ j, k.calls ≤ j → j < k1.calls → k.grant j = true

/-- Every write of the sequence has an offset whose group index fits a C `int`. -/
def offsets_fit (quantum qset : Int) (calls : List Call) : Bool :=
  calls.all fun c =>
    match c with
    | Call.read _ _ _ _ => true
    | Call.write _ _ _ p => decide ((p : Int) / (quantum * qset) ≤ INT_MAX)

/-- An allocator that grants every request and hands out zeroed memory. -/
def k0 : Kernel := ⟨fun _ => true, fun _ _ => 0, 0, 0⟩

/-! ## Arithmetic of the addressing -/

theorem toInt32_of_range {x : Int} (h1 : -2 ^ 31 ≤ x) (h2 : x < 2 ^ 31) : toInt32 x = x := by
  unfold toInt32; omega

theorem toInt32_range (x : Int) : -2 ^ 31 ≤ toInt32 x ∧ toInt32 x < 2 ^ 31 := by
  unfold toInt32; omega

theorem tmod_range (p : Nat) (w : Int) (hw : w ≠ 0) (h1 : -2 ^ 31 ≤ w) (h2 : w < 2 ^ 31) :
    0 ≤ Int.tmod p w ∧ Int.tmod p w < 2 ^ 31 := by
  have hp : (0 : Int) ≤ p := Int.ofNat_nonneg p
  refine ⟨Int.tmod_nonneg _ hp, ?_⟩
  rcases lt_or_gt_of_ne hw with h | h
  · have e : Int.tmod p w = Int.tmod p (-w) := by rw [Int.tmod_neg]
    rw [e]
    have := Int.tmod_lt_of_pos (p : Int) (show 0 < -w by omega)
    omega
  · have := Int.tmod_lt_of_pos (p : Int) h
    omega

theorem high_water (s x : Nat) : (if s < x then x else s) = max s x := by
  split_ifs <;> omega

theorem read_addr_eq_write_addr (quantum qset : Int) (p : Nat) :
    scull_read_addr quantum qset p = scull_write_addr quantum qset p := rfl

theorem write_addr_range {quantum qset : Int} {p : Nat} {a : Addr} (hq : 0 < quantum)
    (hq2 : quantum < 2 ^ 31) (h : scull_write_addr quantum qset p = some a) :
    0 ≤ a.q_pos ∧ a.q_pos < quantum ∧ 0 ≤ a.s_pos := by
  unfold scull_write_addr at h
  simp only at h
  obtain ⟨w1, w2⟩ := toInt32_range (quantum * qset)
  generalize toInt32 (quantum * qset) = w at h w1 w2
  split at h
  · simp at h
  rename_i hw
  split at h
  · simp at h
  cases h
  dsimp only
  obtain ⟨r1, r2⟩ := tmod_range p w hw w1 w2
  rw [toInt32_of_range (x := Int.tmod p w) (by omega) r2]
  generalize Int.tmod p w = rest at r1 r2
  have hq0 : (0 : Int) ≤ quantum := by omega
  rw [Int.tmod_eq_emod r1 hq0, Int.tdiv_eq_ediv r1 hq0]
  have m1 := Int.emod_nonneg rest (show quantum ≠ 0 by omega)
  have m2 := Int.emod_lt_of_pos rest hq
  have d1 := Int.ediv_nonneg r1 hq0
  have d2 := Int.ediv_le_self quantum r1
  rw [toInt32_of_range (x := rest / quantum) (by omega) (by omega),
    toInt32_of_range (x := rest % quantum) (by omega) (by omega)]
  exact ⟨m1, m2, d1⟩

theorem clip_eq_min (count : Nat) {quantum q_pos : Int} (h0 : 0 ≤ q_pos) (h1 : q_pos < quantum)
    (h2 : quantum < 2 ^ 31) : (clip count quantum q_pos : Int) = min (count : Int) (quantum - q_pos) := by
  unfold clip toSizeT
  rw [toInt32_of_range (by omega) (by omega)]
  have e : (quantum - q_pos) % 2 ^ 64 = quantum - q_pos := Int.emod_eq_of_lt (by omega) (by omega)
  rw [e]
  split_ifs with h
  · rw [Int.toNat_of_nonneg (by omega)]; omega
  · omega

theorem addr_decompose (p : Nat) (quantum qset : Int) (hq : 0 < quantum) (hs : 0 < qset) :
    (p : Int) = (p : Int) / (quantum * qset) * quantum * qset
        + (p : Int) % (quantum * qset) / quantum * quantum + (p : Int) % (quantum * qset) % quantum ∧
    (p : Int) % (quantum * qset) / quantum < qset := by
  have e1 := Int.ediv_add_emod (p : Int) (quantum * qset)
  have e2 := Int.ediv_add_emod ((p : Int) % (quantum * qset)) quantum
  have r2 := Int.emod_lt_of_pos (p : Int) (Int.mul_pos hq hs)
  constructor
  · have : (p : Int) / (quantum * qset) * quantum * qset = quantum * qset * ((p : Int) / (quantum * qset)) := by ring
    rw [this]
    have : (p : Int) % (quantum * qset) / quantum * quantum = quantum * ((p : Int) % (quantum * qset) / quantum) := by ring
    rw [this]
    omega
  · apply Int.ediv_lt_of_lt_mul hq
    rw [Int.mul_comm qset quantum]; exact r2

/-! ## The traversal -/

theorem kmalloc_grant (k : Kernel) (size : Int) : (kmalloc k size).2.grant = k.grant := rfl

theorem kmalloc_ok (k : Kernel) (size : Int) (hk : always_grants k) (hs : 0 ≤ size) :
    (kmalloc k size).1 = true := by
  simp [kmalloc, hs, hk k.calls]

theorem follow_walk_grant (steps : Nat) : ∀ (k : Kernel) (chain : List scull_qset) (i : Nat),
    (follow_walk k chain i steps).2.2.grant = k.grant := by
  induction steps with
  | zero => intro k chain i; rfl
  | succ n ih =>
    intro k chain i
    simp only [follow_walk]
    split
    · exact ih _ _ _
    · split
      · rw [ih]; rfl
      · rfl

theorem follow_walk_ok (steps : Nat) : ∀ (k : Kernel) (chain : List scull_qset) (i : Nat),
    always_grants k → i < chain.length →
    (follow_walk k chain i steps).1 = some (i + steps) ∧
    (follow_walk k chain i steps).2.1 = pad_chain chain (i + steps + 1) := by
  induction steps with
  | zero =>
    intro k chain i _ hi
    simp [follow_walk, pad_chain, Nat.sub_eq_zero_of_le (Nat.succ_le_of_lt hi)]
  | succ n ih =>
    intro k chain i hk hi
    simp only [follow_walk]
    split
    · rename_i h
      have := ih k chain (i + 1) hk h
      rw [this.1, this.2]
      exact ⟨by congr 1; omega, by congr 1; omega⟩
    · rename_i h
      have hlen : chain.length = i + 1 := by omega
      rw [if_pos (kmalloc_ok k 16 hk (by decide))]
      have := ih (kmalloc k 16).2 (chain ++ [empty_qset]) (i + 1) hk (by simp; omega)
      rw [this.1, this.2]
      refine ⟨by congr 1; omega, ?_⟩
      simp only [pad_chain, List.length_append, List.length_singleton, List.append_assoc]
      congr 1
      rw [hlen]
      have : i + (n + 1) + 1 - (i + 1) = (i + 1 + n + 1 - (i + 1 + 1)) + 1 := by omega
      rw [this, List.replicate_succ]
      rfl

theorem follow_walk_existing (steps : Nat) : ∀ (k : Kernel) (chain : List scull_qset) (i : Nat),
    i + steps < chain.length → follow_walk k chain i steps = (some (i + steps), chain, k) := by
  induction steps with
  | zero => intro k chain i _; rfl
  | succ n ih =>
    intro k chain i h
    simp only [follow_walk]
    rw [if_pos (by omega), ih k chain (i + 1) (by omega)]
    congr 2; omega

theorem scull_follow_existing (k : Kernel) (dev : scull_dev) (n : Int)
    (h : loop_count n < dev.data.length) : scull_follow k dev n = (some (loop_count n), dev, k) := by
  unfold scull_follow
  split
  · rename_i he; rw [he] at h; simp at h
  · rw [follow_walk_existing _ k dev.data 0 (by omega)]
    simp

theorem scull_follow_ok (k : Kernel) (dev : scull_dev) (n : Int) (hk : always_grants k) :
    (scull_follow k dev n).1 = some (loop_count n) ∧
    (scull_follow k dev n).2.1 = { dev with data := pad_chain dev.data (loop_count n + 1) } ∧
    (scull_follow k dev n).2.2.grant = k.grant := by
  unfold scull_follow
  split
  · rename_i he
    dsimp only
    rw [if_pos (kmalloc_ok k 16 hk (by decide))]
    have := follow_walk_ok (loop_count n) (kmalloc k 16).2 [empty_qset] 0 hk (by simp)
    refine ⟨by simpa using this.1, ?_, by rw [follow_walk_grant]; rfl⟩
    dsimp only
    rw [this.2, he]
    simp [pad_chain, ← List.replicate_succ]
  · rename_i x y he
    have hlen : 0 < dev.data.length := by rw [he]; simp
    have := follow_walk_ok (loop_count n) k dev.data 0 hk hlen
    refine ⟨by simpa using this.1, ?_, by rw [follow_walk_grant]⟩
    dsimp only
    rw [this.2]
    simp

/-! ## Results of `scull_write` and `scull_read` -/

theorem scull_follow_fields (k : Kernel) (dev : scull_dev) (n : Int) :
    (scull_follow k dev n).2.1.quantum = dev.quantum ∧
    (scull_follow k dev n).2.1.qset = dev.qset ∧
    (scull_follow k dev n).2.1.size = dev.size := by
  unfold scull_follow
  split
  · dsimp only
    split <;> simp
  · simp

/-- Every defined result of `scull_write` is either an error that leaves `*f_pos` and the size
alone, or a success whose count is the clipped count. -/
theorem write_result_cases (k : Kernel) (intr : Bool) (dev : scull_dev) (buf : List Byte)
    (count p : Nat) (r : WriteResult) (h : scull_write k intr dev buf count p = some r) :
    r.dev.quantum = dev.quantum ∧ r.dev.qset = dev.qset ∧
    ((r.ret < 0 ∧ r.f_pos = p ∧ r.dev.size = dev.size) ∨
     (intr = false ∧ ∃ a, scull_write_addr dev.quantum dev.qset p = some a ∧
        r.ret = clip count dev.quantum a.q_pos ∧
        r.f_pos = p + clip count dev.quantum a.q_pos ∧
        r.dev.size = max dev.size (p + clip count dev.quantum a.q_pos))) := by
  unfold scull_write at h
  simp only [] at h
  split at h
  · cases h; exact ⟨rfl, rfl, Or.inl ⟨(by decide : -ERESTARTSYS < 0), rfl, rfl⟩⟩
  rename_i hi
  have hi : intr = false := by simpa using hi
  split at h
  · simp at h
  rename_i a ha
  obtain ⟨hfq, hfs, hfz⟩ := scull_follow_fields k dev a.item
  split at h
  · cases h; exact ⟨hfq, hfs, Or.inl ⟨(by decide : -ENOMEM < 0), rfl, hfz⟩⟩
  split at h
  · simp at h
  split at h
  · cases h; exact ⟨hfq, hfs, Or.inl ⟨(by decide : -ENOMEM < 0), rfl, hfz⟩⟩
  split at h
  · simp at h
  split at h
  · cases h; exact ⟨hfq, hfs, Or.inl ⟨(by decide : -ENOMEM < 0), rfl, hfz⟩⟩
  split at h
  · simp at h
  · split at h
    · cases h
      rename_i hc
      refine ⟨hfq, hfs, Or.inr ⟨hi, a, ha, by simp [hc], by simp [hc], ?_⟩⟩
      dsimp only
      rw [hfz, hc, high_water]; rfl
    · simp at h
  · split at h
    · simp at h
    split at h
    · cases h; exact ⟨hfq, hfs, Or.inl ⟨(by decide : -EFAULT < 0), rfl, hfz⟩⟩
    · cases h
      refine ⟨hfq, hfs, Or.inr ⟨hi, a, ha, rfl, rfl, ?_⟩⟩
      dsimp only
      rw [hfz, high_water]

/-- Whatever `scull_read` returns, it leaves the size, the quantum and the qset alone. -/
theorem read_result_fields (k : Kernel) (intr : Bool) (dev : scull_dev) (cap count p : Nat)
    (r : ReadResult) (h : scull_read k intr dev cap count p = some r) :
    r.dev.quantum = dev.quantum ∧ r.dev.qset = dev.qset ∧ r.dev.size = dev.size := by
  unfold scull_read at h
  simp only [] at h
  split at h
  · cases h; exact ⟨rfl, rfl, rfl⟩
  split at h
  · cases h; exact ⟨rfl, rfl, rfl⟩
  split at h
  · simp at h
  rename_i a ha
  have hf := scull_follow_fields k dev a.item
  split at h
  · cases h; exact hf
  split at h
  · simp at h
  split at h
  · cases h; exact hf
  split at h
  · simp at h
  · cases h; exact hf
  · split at h
    · simp at h
    split at h
    · cases h; exact hf
    · cases h; exact hf

theorem pad_chain_length (chain : List scull_qset) (m : Nat) :
    (pad_chain chain m).length = max chain.length m := by
  simp only [pad_chain, List.length_append, List.length_replicate]; omega

theorem pad_chain_ok (quantum qset : Int) (chain : List scull_qset) (m : Nat)
    (h : chain.all (node_ok quantum qset) = true) :
    (pad_chain chain m).all (node_ok quantum qset) = true := by
  rw [List.all_eq_true] at h ⊢
  intro x hx
  rcases List.mem_append.1 hx with hx | hx
  · exact h x hx
  · rw [(List.mem_replicate.1 hx).2]; rfl

theorem all_set {α : Type} (f : α → Bool) (l : List α) (i : Nat) (x : α)
    (hl : l.all f = true) (hx : f x = true) : (l.set i x).all f = true := by
  rw [List.all_eq_true] at hl ⊢
  intro y hy
  rcases List.mem_or_eq_of_mem_set hy with hy | hy
  · exact hl y hy
  · rw [hy]; exact hx

theorem write_slots_ok (k : Kernel) (quantum qset : Int) (node : scull_qset)
    (hk : always_grants k) (hs : 0 ≤ qset) (hn : node_ok quantum qset node = true) :
    ∃ arr, (write_slots k qset node).1 = some arr ∧ slots_ok quantum qset arr = true ∧
      (write_slots k qset node).2.grant = k.grant := by
  unfold write_slots
  unfold node_ok at hn
  split
  · rename_i arr0 he
    rw [he] at hn
    exact ⟨arr0, rfl, hn, rfl⟩
  · dsimp only
    rw [if_pos (kmalloc_ok k _ hk (by omega))]
    refine ⟨_, rfl, ?_, rfl⟩
    simp [slots_ok, block_ok]

theorem write_block_ok (k : Kernel) (quantum : Int) (b : Option Block)
    (hk : always_grants k) (hq : 0 ≤ quantum) (hb : block_ok quantum b = true) :
    ∃ blk, (write_block k quantum b).1 = some blk ∧ blk.length = quantum.toNat ∧
      (write_block k quantum b).2.grant = k.grant := by
  unfold write_block
  split
  · rename_i blk
    exact ⟨blk, rfl, by simpa [block_ok] using hb, rfl⟩
  · dsimp only
    rw [if_pos (kmalloc_ok k _ hk hq)]
    exact ⟨_, rfl, by simp [fresh_block], rfl⟩

theorem slot_of_lt (arr : List (Option Block)) (idx : Int) (h0 : 0 ≤ idx)
    (h1 : idx.toNat < arr.length) : slot arr idx = some (arr.get ⟨idx.toNat, h1⟩) := by
  unfold slot
  rw [if_neg (by omega)]
  simp [List.getElem?_eq_getElem h1]

theorem clip_le (count : Nat) (quantum q_pos : Int) (h0 : 0 ≤ q_pos) (h1 : q_pos < quantum)
    (h2 : quantum < 2 ^ 31) :
    clip count quantum q_pos ≤ count ∧ q_pos.toNat + clip count quantum q_pos ≤ quantum.toNat := by
  have e := clip_eq_min count h0 h1 h2
  omega

theorem write_addr_int {quantum qset : Int} {p : Nat} {a : Addr}
    (h : scull_write_addr quantum qset p = some a) :
    (-2 ^ 31 ≤ a.item ∧ a.item < 2 ^ 31) ∧ (-2 ^ 31 ≤ a.s_pos ∧ a.s_pos < 2 ^ 31) ∧
    (-2 ^ 31 ≤ a.q_pos ∧ a.q_pos < 2 ^ 31) := by
  unfold scull_write_addr at h
  simp only at h
  split at h
  · simp at h
  split at h
  · simp at h
  cases h
  exact ⟨toInt32_range _, toInt32_range _, toInt32_range _⟩

theorem slot_set_self (arr : List (Option Block)) (idx : Int) (x : Option Block) (h0 : 0 ≤ idx)
    (h1 : idx.toNat < arr.length) : slot (arr.set idx.toNat x) idx = some x := by
  unfold slot
  rw [if_neg (by omega)]
  simp [h1]

theorem copy_from_user_length (blk buf : List Byte) (c : Nat) (h : c ≤ blk.length) :
    (copy_from_user blk buf c).1.length = blk.length := by
  simp only [copy_from_user, List.length_append, List.length_take, List.length_replicate,
    List.length_drop]
  omega

theorem copy_from_user_take (blk buf : List Byte) (c : Nat) (h : c ≤ buf.length) :
    (copy_from_user blk buf c).1.take c = buf.take c ∧ (copy_from_user blk buf c).2 = 0 := by
  simp only [copy_from_user, Nat.sub_eq_zero_of_le h, List.replicate_zero, List.append_nil,
    and_true]
  rw [List.take_append_of_le_length (by simp [h])]
  simp

theorem write_aligned (k : Kernel) (dev : scull_dev) (buf : List Byte) (count p : Nat) (a : Addr)
    (hk : always_grants k) (hq : 0 < dev.quantum) (hq2 : dev.quantum < 2 ^ 31)
    (hs : 0 ≤ dev.qset) (hwf : well_formed dev = true)
    (ha : scull_write_addr dev.quantum dev.qset p = some a) (haq : a.q_pos = 0)
    (has : a.s_pos < dev.qset) (hbuf : clip count dev.quantum 0 ≤ buf.length) :
    ∃ r blk, scull_write k false dev buf count p = some r ∧
      r.ret = clip count dev.quantum 0 ∧ always_grants r.k ∧ well_formed r.dev = true ∧
      loop_count a.item < r.dev.data.length ∧
      block_at r.dev a = some blk ∧ blk.length = dev.quantum.toNat ∧
      blk.take (clip count dev.quantum 0) = buf.take (clip count dev.quantum 0) := by
  obtain ⟨_, _, hs0⟩ := write_addr_range hq hq2 ha
  obtain ⟨hf1, hf2, hf3⟩ := scull_follow_ok k dev a.item hk
  rcases hfe : scull_follow k dev a.item with ⟨o, d1, k1⟩
  rw [hfe] at hf1 hf2 hf3
  dsimp only at hf1 hf2 hf3
  subst hf1 hf2
  have hk1 : always_grants k1 := by intro j; rw [hf3]; exact hk j
  -- the node reached by the traversal
  have hlen : loop_count a.item < (pad_chain dev.data (loop_count a.item + 1)).length := by
    rw [pad_chain_length]; omega
  have hnode := List.getElem?_eq_getElem hlen
  have hnok : node_ok dev.quantum dev.qset (pad_chain dev.data (loop_count a.item + 1))[loop_count a.item] = true :=
    List.all_eq_true.1 (pad_chain_ok _ _ _ _ hwf) _ (List.getElem_mem _)
  generalize (pad_chain dev.data (loop_count a.item + 1))[loop_count a.item] = node at hnode hnok
  -- its slot array
  obtain ⟨arr, hs1, hsok, hs3⟩ := write_slots_ok k1 dev.quantum dev.qset node hk1 hs hnok
  rcases hse : write_slots k1 dev.qset node with ⟨so, k2⟩
  rw [hse] at hs1 hs3
  dsimp only at hs1 hs3
  subst hs1
  have hk2 : always_grants k2 := by intro j; rw [hs3]; exact hk1 j
  simp only [slots_ok, Bool.and_eq_true, beq_iff_eq] at hsok
  have hidx : a.s_pos.toNat < arr.length := by rw [hsok.1]; omega
  have hslot := slot_of_lt arr a.s_pos hs0 hidx
  have hbok : block_ok dev.quantum (arr.get ⟨a.s_pos.toNat, hidx⟩) = true :=
    List.all_eq_true.1 hsok.2 _ (List.get_mem _ _ _)
  generalize arr.get ⟨a.s_pos.toNat, hidx⟩ = b at hslot hbok
  -- the block of the slot
  obtain ⟨blk0, hw1, hwlen, hw3⟩ := write_block_ok k2 dev.quantum b hk2 (by omega) hbok
  rcases hwe : write_block k2 dev.quantum b with ⟨wo, k3⟩
  rw [hwe] at hw1 hw3
  dsimp only at hw1 hw3
  subst hw1
  have hk3 : always_grants k3 := by intro j; rw [hw3]; exact hk2 j
  -- the destination slot is the slot of the block
  obtain ⟨_, hsr, _⟩ := write_addr_int ha
  have hd : toInt32 (a.s_pos + 0) = a.s_pos := by
    rw [Int.add_zero]; exact toInt32_of_range hsr.1 hsr.2
  have hslot1 := slot_set_self arr a.s_pos (some blk0) hs0 hidx
  obtain ⟨_, hcl⟩ := clip_le count dev.quantum 0 (le_refl 0) hq hq2
  have hcl : clip count dev.quantum 0 ≤ blk0.length := by rw [hwlen]; simpa using hcl
  obtain ⟨hct, hc0⟩ := copy_from_user_take blk0 buf _ hbuf
  have hclen := copy_from_user_length blk0 buf _ hcl
  unfold scull_write
  simp only [Bool.false_eq_true, if_false, ha, hfe, hnode, hse, hslot, hwe, haq, hd, hslot1]
  rw [if_neg (by omega), if_neg (by simp [hc0])]
  refine ⟨_, _, rfl, rfl, hk3, ?_, ?_, ?_, ?_, hct⟩
  · simp only [well_formed, set_slots]
    refine all_set _ _ _ _ (pad_chain_ok _ _ _ _ hwf) ?_
    simp only [node_ok, slots_ok, List.length_set, hsok.1, beq_self_eq_true, Bool.true_and]
    refine all_set _ _ _ _ (all_set _ _ _ _ hsok.2 ?_) ?_
    · simp [block_ok, hwlen]
    · simp [block_ok, hclen, hwlen]
  · simp only [set_slots, List.length_set]; exact hlen
  · simp only [block_at, set_slots]
    rw [List.getElem?_set_self hlen]
    simp only
    rw [slot_set_self _ a.s_pos _ hs0 (by simpa using hidx)]
  · rw [hclen, hwlen]

theorem follow_walk_some (steps : Nat) : ∀ (k : Kernel) (chain : List scull_qset) (i j : Nat),
    i < chain.length → (follow_walk k chain i steps).1 = some j →
    j = i + steps ∧ (follow_walk k chain i steps).2.1 = pad_chain chain (i + steps + 1) := by
  induction steps with
  | zero =>
    intro k chain i j hi h
    simp only [follow_walk, Option.some.injEq] at h
    subst h
    simp [follow_walk, pad_chain, Nat.sub_eq_zero_of_le (Nat.succ_le_of_lt hi)]
  | succ n ih =>
    intro k chain i j hi h
    simp only [follow_walk] at h ⊢
    split at h
    · rename_i hlt
      rw [if_pos hlt]
      have := ih k chain (i + 1) j hlt h
      exact ⟨by omega, by rw [this.2]; congr 1; omega⟩
    · rename_i hlt
      rw [if_neg hlt]
      have hlen : chain.length = i + 1 := by omega
      split at h
      · rename_i hg
        rw [if_pos hg]
        have := ih (kmalloc k 16).2 (chain ++ [empty_qset]) (i + 1) j (by simp; omega) h
        refine ⟨by omega, ?_⟩
        rw [this.2]
        simp only [pad_chain, List.length_append, List.length_singleton, List.append_assoc]
        congr 1
        rw [hlen]
        have e : i + (n + 1) + 1 - (i + 1) = (i + 1 + n + 1 - (i + 1 + 1)) + 1 := by omega
        rw [e, List.replicate_succ]
        rfl
      · simp at h

theorem scull_follow_some (k : Kernel) (dev : scull_dev) (n : Int) (j : Nat)
    (h : (scull_follow k dev n).1 = some j) :
    j = loop_count n ∧
    (scull_follow k dev n).2.1 = { dev with data := pad_chain dev.data (loop_count n + 1) } := by
  unfold scull_follow at h ⊢
  split
  · rename_i he
    rw [he] at h
    dsimp only at h ⊢
    split at h
    · rename_i hg
      rw [if_pos hg]
      have := follow_walk_some (loop_count n) (kmalloc k 16).2 [empty_qset] 0 j (by simp) h
      refine ⟨by omega, ?_⟩
      dsimp only
      rw [this.2, he]
      simp [pad_chain, ← List.replicate_succ]
    · simp at h
  · rename_i x y he
    have hlen : 0 < dev.data.length := by rw [he]; simp
    have h : (follow_walk k dev.data 0 (loop_count n)).1 = some j := by
      rw [he] at h ⊢; exact h
    have := follow_walk_some (loop_count n) k dev.data 0 j hlen h
    refine ⟨by omega, ?_⟩
    dsimp only
    rw [this.2]
    simp

theorem block_at_some {dev : scull_dev} {a : Addr} {blk : Block} (hb : block_at dev a = some blk) :
    ∃ node arr, dev.data[loop_count a.item]? = some node ∧ node.data = some arr ∧
      slot arr a.s_pos = some (some blk) ∧ loop_count a.item < dev.data.length := by
  unfold block_at at hb
  split at hb
  · simp at hb
  rename_i node hn
  split at hb
  · simp at hb
  rename_i arr harr
  split at hb
  · rename_i blk0 hsl
    cases hb
    refine ⟨node, arr, hn, harr, hsl, ?_⟩
    by_contra hc
    rw [List.getElem?_eq_none (by omega)] at hn
    simp at hn
  · simp at hb

/-- Result of a read whose block is present. -/
theorem read_present (k : Kernel) (dev : scull_dev) (cap count pos : Nat) (a : Addr)
    (blk : Block) (hpos : pos < dev.size)
    (ha : scull_read_addr dev.quantum dev.qset pos = some a) (hb : block_at dev a = some blk) :
    scull_read k false dev cap count pos =
      if a.q_pos < 0 ∨
          a.q_pos.toNat + clip (clamp count pos dev.size) dev.quantum a.q_pos > blk.length then
        none
      else if clip (clamp count pos dev.size) dev.quantum a.q_pos - cap ≠ 0 then
        some ⟨-EFAULT,
          ((blk.drop a.q_pos.toNat).take (clip (clamp count pos dev.size) dev.quantum a.q_pos)).take
            cap, dev, pos, k⟩
      else
        some ⟨clip (clamp count pos dev.size) dev.quantum a.q_pos,
          ((blk.drop a.q_pos.toNat).take (clip (clamp count pos dev.size) dev.quantum a.q_pos)).take
            cap, dev, pos + clip (clamp count pos dev.size) dev.quantum a.q_pos, k⟩ := by
  obtain ⟨node, arr, hn, harr, hsl, hlen⟩ := block_at_some hb
  unfold scull_read
  simp only [Bool.false_eq_true, if_false, ha, scull_follow_existing k dev a.item hlen, hn, harr,
    hsl, copy_to_user, if_neg (show ¬ pos ≥ dev.size by omega)]

theorem always_grants_k0 : always_grants k0 := fun _ => rfl

theorem read_past_end (k : Kernel) (dev : scull_dev) (cap count pos : Nat)
    (h : dev.size ≤ pos) : scull_read k false dev cap count pos = some ⟨0, [], dev, pos, k⟩ := by
  unfold scull_read
  simp only [Bool.false_eq_true, if_false]
  rw [if_pos h]

theorem read_interrupted (k : Kernel) (dev : scull_dev) (cap count pos : Nat) :
    scull_read k true dev cap count pos = some ⟨-ERESTARTSYS, [], dev, pos, k⟩ := by
  unfold scull_read
  simp

/-- With a representable product the slot and the byte offset are the mathematical ones. -/
theorem write_addr_exact (p : Nat) (quantum qset : Int) (hq : 0 < quantum) (hs : 0 < qset)
    (hrep : quantum * qset < 2 ^ 31) :
    scull_write_addr quantum qset p =
      some ⟨toInt32 ((p : Int) / (quantum * qset)), (p : Int) % (quantum * qset) / quantum,
        (p : Int) % (quantum * qset) % quantum⟩ := by
  have hw : 0 < quantum * qset := Int.mul_pos hq hs
  have hp : (0 : Int) ≤ p := Int.ofNat_nonneg p
  unfold scull_write_addr
  simp only
  have hq2 : quantum < 2 ^ 31 := by nlinarith
  rw [toInt32_of_range (x := quantum * qset) (by omega) hrep]
  generalize quantum * qset = w at hw hrep
  rw [if_neg (by omega), if_neg (by omega)]
  rw [Int.tmod_eq_emod hp (by omega), Int.tdiv_eq_ediv hp (by omega)]
  have r1 := Int.emod_nonneg (p : Int) (show w ≠ 0 by omega)
  have r2 := Int.emod_lt_of_pos (p : Int) hw
  rw [toInt32_of_range (x := (p : Int) % w) (by omega) (by omega)]
  generalize (p : Int) % w = rest at r1 r2
  have hq0 : (0 : Int) ≤ quantum := by omega
  rw [Int.tmod_eq_emod r1 hq0, Int.tdiv_eq_ediv r1 hq0]
  have m1 := Int.emod_nonneg rest (show quantum ≠ 0 by omega)
  have m2 := Int.emod_lt_of_pos rest hq
  have d1 := Int.ediv_nonneg r1 hq0
  have d2 := Int.ediv_le_self quantum r1
  rw [toInt32_of_range (x := rest / quantum) (by omega) (by omega),
    toInt32_of_range (x := rest % quantum) (by omega) (by omega)]

theorem clamp_eq_min (count pos size : Nat) (h : pos < size) (hc : pos + count < 2 ^ 64) :
    clamp count pos size = min count (size - pos) := by
  unfold clamp
  rw [Nat.mod_eq_of_lt hc]
  split_ifs <;> omega

/-- The size after a run is the larger of the size before and the high mark of the run. -/
theorem run_size (calls : List Call) : ∀ (k : Kernel) (dev : scull_dev) (dev1 : scull_dev)
    (k1 : Kernel) (t : List Returned), run k dev calls = some (dev1, k1, t) →
    dev1.size = max dev.size (high_mark t) ∧ dev1.quantum = dev.quantum ∧
      dev1.qset = dev.qset := by
  induction calls with
  | nil =>
    intro k dev dev1 k1 t h
    simp only [run, Option.some.injEq, Prod.mk.injEq] at h
    obtain ⟨h1, _, h3⟩ := h
    subst h1 h3
    simp [high_mark]
  | cons c rest ih =>
    intro k dev dev1 k1 t h
    cases c with
    | read intr cap count p =>
      simp only [run] at h
      split at h
      · simp at h
      rename_i r hr
      split at h
      · simp at h
      rename_i t1 ht1
      simp only [Option.some.injEq, Prod.mk.injEq] at h
      obtain ⟨h1, h2, h3⟩ := h
      obtain ⟨e1, e2, e3⟩ := ih r.k r.dev t1.1 t1.2.1 t1.2.2 ht1
      obtain ⟨f1, f2, f3⟩ := read_result_fields k intr dev cap count p r hr
      subst h1 h3
      refine ⟨?_, by rw [e2, f1], by rw [e3, f2]⟩
      rw [e1, f3]
      simp [high_mark]
    | write intr buf count p =>
      simp only [run] at h
      split at h
      · simp at h
      rename_i r hr
      split at h
      · simp at h
      rename_i t1 ht1
      simp only [Option.some.injEq, Prod.mk.injEq] at h
      obtain ⟨h1, h2, h3⟩ := h
      obtain ⟨e1, e2, e3⟩ := ih r.k r.dev t1.1 t1.2.1 t1.2.2 ht1
      obtain ⟨f1, f2, f3⟩ := write_result_cases k intr dev buf count p r hr
      subst h1 h3
      refine ⟨?_, by rw [e2, f1], by rw [e3, f2]⟩
      rw [e1]
      rcases f3 with ⟨g1, _, g3⟩ | ⟨_, a, _, g1, _, g3⟩
      · rw [g3]
        simp only [high_mark]
        rw [if_neg (by simp; omega)]
      · rw [g3]
        simp only [high_mark]
        rw [if_pos (by simp [g1])]
        rw [g1]
        simp only [Int.toNat_ofNat]
        omega

theorem loop_count_of_nonneg (n : Int) (h0 : 0 ≤ n) (h1 : n < 2 ^ 31) : loop_count n = n.toNat := by
  unfold loop_count
  rw [Int.emod_eq_of_lt h0 (by omega)]

/-- The block at an address with a non-negative slot, by group and slot number. -/
theorem block_at_eq_block_of (dev : scull_dev) (a : Addr) (h0 : 0 ≤ a.s_pos) :
    block_at dev a = block_of dev.data (loop_count a.item) a.s_pos.toNat := by
  have hn : ¬ a.s_pos < 0 := by omega
  unfold block_at block_of slot
  cases dev.data[loop_count a.item]? with
  | none => rfl
  | some node =>
    dsimp only
    cases node.data with
    | none => rfl
    | some arr =>
      dsimp only
      rw [if_neg hn]
      cases arr[a.s_pos.toNat]? with
      | none => rfl
      | some b => cases b <;> rfl

theorem loop_count_lt (n : Int) : loop_count n < 2 ^ 32 := by
  unfold loop_count
  have h1 := Int.emod_lt_of_pos n (by norm_num : (0 : Int) < 2 ^ 32)
  have h0 := Int.emod_nonneg n (by norm_num : (2 : Int) ^ 32 ≠ 0)
  omega

theorem loop_count_toInt32 (x : Int) (h0 : 0 ≤ x) (h1 : x < 2 ^ 32) :
    loop_count (toInt32 x) = x.toNat := by
  unfold loop_count toInt32
  congr 1
  omega

theorem follow_walk_length (steps : Nat) : ∀ (k : Kernel) (chain : List scull_qset) (i : Nat),
    (follow_walk k chain i steps).2.1.length ≤ max chain.length (i + steps + 1) := by
  induction steps with
  | zero => intro k chain i; simp [follow_walk]
  | succ n ih =>
    intro k chain i
    simp only [follow_walk]
    split
    · have := ih k chain (i + 1)
      omega
    · split
      · have := ih (kmalloc k 16).2 (chain ++ [empty_qset]) (i + 1)
        rw [List.length_append, List.length_singleton] at this
        omega
      · exact Nat.le_max_left _ _

theorem scull_follow_length (k : Kernel) (dev : scull_dev) (n : Int) :
    (scull_follow k dev n).2.1.data.length ≤ max dev.data.length (2 ^ 32) := by
  have hl := loop_count_lt n
  unfold scull_follow
  split
  · dsimp only
    split
    · have := follow_walk_length (loop_count n) (kmalloc k 16).2 [empty_qset] 0
      dsimp only
      rw [List.length_singleton] at this
      omega
    · exact Nat.le_max_left _ _
  · have := follow_walk_length (loop_count n) k dev.data 0
    dsimp only
    omega

theorem read_chain_length (k : Kernel) (intr : Bool) (dev : scull_dev) (cap count p : Nat)
    (r : ReadResult) (h : scull_read k intr dev cap count p = some r) :
    r.dev.data.length ≤ max dev.data.length (2 ^ 32) := by
  have h0 : dev.data.length ≤ max dev.data.length (2 ^ 32) := Nat.le_max_left _ _
  unfold scull_read at h
  simp only [] at h
  split at h
  · cases h; exact h0
  split at h
  · cases h; exact h0
  split at h
  · simp at h
  rename_i a ha
  have hf := scull_follow_length k dev a.item
  split at h
  · cases h; exact hf
  split at h
  · simp at h
  split at h
  · cases h; exact hf
  split at h
  · simp at h
  · cases h; exact hf
  · split at h
    · simp at h
    split at h
    · cases h; exact hf
    · cases h; exact hf

theorem set_slots_length (chain : List scull_qset) (i : Nat) (arr : List (Option Block)) :
    (set_slots chain i arr).length = chain.length := by
  unfold set_slots
  exact List.length_set _ _ _

theorem write_chain_length (k : Kernel) (intr : Bool) (dev : scull_dev) (buf : List Byte)
    (count p : Nat) (r : WriteResult) (h : scull_write k intr dev buf count p = some r) :
    r.dev.data.length ≤ max dev.data.length (2 ^ 32) := by
  have h0 : dev.data.length ≤ max dev.data.length (2 ^ 32) := Nat.le_max_left _ _
  unfold scull_write at h
  simp only [] at h
  split at h
  · cases h; exact h0
  split at h
  · simp at h
  rename_i a ha
  have hf := scull_follow_length k dev a.item
  split at h
  · cases h; exact hf
  split at h
  · simp at h
  split at h
  · cases h; exact hf
  split at h
  · simp at h
  split at h
  · cases h; dsimp only; rw [set_slots_length]; exact hf
  split at h
  · simp at h
  · split at h
    · cases h; dsimp only; rw [set_slots_length]; exact hf
    · simp at h
  · split at h
    · simp at h
    split at h
    · cases h; dsimp only; rw [set_slots_length]; exact hf
    · cases h; dsimp only; rw [set_slots_length]; exact hf

/-- A chain of at most 2^32 groups stays so: `scull_follow` counts an `int` down, so it never
reaches beyond the group 2^32 - 1. -/
theorem run_chain_length (calls : List Call) : ∀ (k : Kernel) (dev : scull_dev)
    (dev1 : scull_dev) (k1 : Kernel) (t : List Returned), run k dev calls = some (dev1, k1, t) →
    dev.data.length ≤ 2 ^ 32 → dev1.data.length ≤ 2 ^ 32 := by
  induction calls with
  | nil =>
    intro k dev dev1 k1 t h hl
    simp only [run, Option.some.injEq, Prod.mk.injEq] at h
    rw [← h.1]
    exact hl
  | cons c rest ih =>
    intro k dev dev1 k1 t h hl
    cases c with
    | read intr cap count p =>
      simp only [run] at h
      split at h
      · simp at h
      rename_i r hr
      split at h
      · simp at h
      rename_i t1 ht1
      simp only [Option.some.injEq, Prod.mk.injEq] at h
      have hr2 := read_chain_length k intr dev cap count p r hr
      have := ih r.k r.dev t1.1 t1.2.1 t1.2.2 ht1 (by omega)
      rw [h.1] at this
      exact this
    | write intr buf count p =>
      simp only [run] at h
      split at h
      · simp at h
      rename_i r hr
      split at h
      · simp at h
      rename_i t1 ht1
      simp only [Option.some.injEq, Prod.mk.injEq] at h
      have hr2 := write_chain_length k intr dev buf count p r hr
      have := ih r.k r.dev t1.1 t1.2.1 t1.2.2 ht1 (by omega)
      rw [h.1] at this
      exact this

theorem block_of_lt {chain : List scull_qset} {i s : Nat} {blk : Block}
    (h : block_of chain i s = some blk) : i < chain.length := by
  unfold block_of at h
  by_contra hn
  rw [List.getElem?_eq_none (by omega)] at h
  simp at h

/-! ## The claims -/

/-- Claim C1 (write/read round trip) fails on the code. On a store truncated to quantum 4 and
qset 4, after "AB" was written at offset 0 and "CD" at offset 4, the write of "X" at offset 1
succeeds and returns 1, and the read of 1 byte at offset 1 that follows returns 1 but
delivers "B" (66), not "X" (88): line 197 copies into `data[s_pos + q_pos]`, line 143 reads
from `data[s_pos] + q_pos`. -/
theorem round_trip_broken_inside_block :
    (run k0 (scull_trim 4 4 k0 scull_init_dev).2.1
      [Call.write false [65, 66] 2 0, Call.write false [67, 68] 2 4, Call.write false [88] 1 1,
        Call.read false 1 1 1]).map (fun t => t.2.2) =
    some [⟨true, 0, 2, []⟩, ⟨true, 4, 2, []⟩, ⟨true, 1, 1, []⟩, ⟨false, 1, 1, [66]⟩] := by
  decide

/-- Claim C2 (write destination) fails on the code. Offset 1 has the address (group 0, slot 0,
byte 1) for quantum 4 and qset 4; on the store holding "AB" in slot 0 and "CD" in slot 1 the
successful write of "X" at offset 1 leaves slot 0 as it was and puts "X" at byte 0 of
slot 1. -/
theorem write_lands_in_other_slot :
    scull_write_addr 4 4 1 = some ⟨0, 0, 1⟩ ∧
    (run k0 (scull_trim 4 4 k0 scull_init_dev).2.1
      [Call.write false [65, 66] 2 0, Call.write false [67, 68] 2 4,
        Call.write false [88] 1 1]).map (fun t => (t.1.data, t.2.2)) =
    some ([⟨some [some [65, 66, 0, 0], some [88, 68, 0, 0], none, none]⟩],
      [⟨true, 0, 2, []⟩, ⟨true, 4, 2, []⟩, ⟨true, 1, 1, []⟩]) := by
  decide

/-- Claim C3 as stated fails: with quantum = qset = 65537 the `int` product `quantum * qset`
wraps to 131073. On the truncated store the write of 2 bytes at offset 131073 has the address
(group 1, slot 0, byte 0) and returns 2, whereas the byte offset of the claim,
`(p mod (quantum * qset)) mod quantum`, is 65536 and `min (count, quantum - byte_offset)`
is 1. -/
theorem write_clip_overflowing_product :
    scull_write_addr 65537 65537 131073 = some ⟨1, 0, 0⟩ ∧
    (∃ r, scull_write k0 false (scull_trim 65537 65537 k0 scull_init_dev).2.1 [65, 66] 2 131073
        = some r ∧ r.ret = 2) ∧
    (131073 : Int) % (65537 * 65537) % 65537 = 65536 ∧
    min (2 : Int) (65537 - (131073 : Int) % (65537 * 65537) % 65537) = 1 := by
  have ha : scull_write_addr 65537 65537 131073 = some ⟨1, 0, 0⟩ := by decide
  have hc : clip 2 65537 0 = 2 := by decide
  refine ⟨ha, ?_, by decide, by decide⟩
  obtain ⟨r, _, w, ret, _⟩ :=
    write_aligned k0 ⟨[], 65537, 65537, 0⟩ [65, 66] 2 131073 ⟨1, 0, 0⟩ always_grants_k0
      (by decide) (by decide) (by decide) (by rfl) ha rfl (by decide) (by rw [hc]; decide)
  dsimp only at ret
  rw [hc] at ret
  exact ⟨r, w, ret⟩

/-- Claim C3, amended (write clipping). When the product `quantum * qset` fits a C `int`, a
successful `scull_write` at offset `p` returns `min (count, quantum - byte_offset)` with
`byte_offset = (p mod (quantum * qset)) mod quantum` and advances `*f_pos` by that amount.
With quantum 4000 and qset 1000 on a truncated store, a 6000-byte write at offset 0 returns
4000, the write of the remaining 2000 bytes at offset 4000 returns 2000, and the size is
then 6000. -/
theorem write_clips_to_block :
    (∀ (k : Kernel) (intr : Bool) (dev : scull_dev) (buf : List Byte) (count p : Nat)
        (r : WriteResult), 0 < dev.quantum → 0 < dev.qset →
        dev.quantum * dev.qset ≤ INT_MAX →
        scull_write k intr dev buf count p = some r → 0 ≤ r.ret →
        r.ret = min (count : Int)
          (dev.quantum - (p : Int) % (dev.quantum * dev.qset) % dev.quantum) ∧
        (r.f_pos : Int) = p + r.ret) ∧
    (∀ (k : Kernel) (dev0 : scull_dev) (buf : List Byte), always_grants k → 6000 ≤ buf.length →
        ∃ r1 r2,
          scull_write (scull_trim 4000 1000 k dev0).2.2 false (scull_trim 4000 1000 k dev0).2.1
            buf 6000 0 = some r1 ∧
          r1.ret = 4000 ∧ r1.f_pos = 4000 ∧
          scull_write r1.k false r1.dev (buf.drop 4000) 2000 4000 = some r2 ∧
          r2.ret = 2000 ∧ r2.f_pos = 6000 ∧ r2.dev.size = 6000) := by
  constructor
  · intro k intr dev buf count p r hq hs hrep h hr
    obtain ⟨_, _, hc⟩ := write_result_cases k intr dev buf count p r h
    rcases hc with ⟨hneg, _⟩ | ⟨_, a, ha, h1, h2, _⟩
    · omega
    · have hrep2 : dev.quantum * dev.qset < 2 ^ 31 := by unfold INT_MAX at hrep; omega
      have hq3 : dev.quantum < 2 ^ 31 := by nlinarith
      obtain ⟨q0, q1, _⟩ := write_addr_range hq hq3 ha
      have hex := write_addr_exact p dev.quantum dev.qset hq hs hrep2
      rw [ha] at hex
      simp only [Option.some.injEq] at hex
      have hqp : a.q_pos = (p : Int) % (dev.quantum * dev.qset) % dev.quantum := by rw [hex]
      refine ⟨?_, ?_⟩
      · rw [h1, ← hqp]; exact clip_eq_min count q0 q1 hq3
      · rw [h2, h1]; simp
  · intro k dev0 buf hk hbuf
    have hk1 : always_grants (scull_trim 4000 1000 k dev0).2.2 := hk
    have ht : (scull_trim 4000 1000 k dev0).2.1 = ⟨[], 4000, 1000, 0⟩ := rfl
    rw [ht]
    generalize (scull_trim 4000 1000 k dev0).2.2 = kt at hk1
    have a1 : scull_write_addr 4000 1000 0 = some ⟨0, 0, 0⟩ := by decide
    have a2 : scull_write_addr 4000 1000 4000 = some ⟨0, 1, 0⟩ := by decide
    have c1 : clip 6000 4000 0 = 4000 := by decide
    have c2 : clip 2000 4000 0 = 2000 := by decide
    obtain ⟨r1, _, w1, ret1, hk2, wf1, _, _, _, _⟩ :=
      write_aligned kt ⟨[], 4000, 1000, 0⟩ buf 6000 0 ⟨0, 0, 0⟩ hk1 (by decide) (by decide)
        (by decide) (by rfl) a1 rfl (by decide) (by rw [c1]; exact le_trans (by decide) hbuf)
    obtain ⟨q1, s1, hc1⟩ := write_result_cases _ _ _ _ _ _ r1 w1
    dsimp only at q1 s1 hc1 ret1
    rw [c1] at ret1
    rcases hc1 with ⟨hneg, _⟩ | ⟨_, a, ha, _, f1, z1⟩
    · rw [ret1] at hneg; omega
    rw [a1] at ha
    cases ha
    rw [c1] at f1 z1
    obtain ⟨r2, _, w2, ret2, _, _, _, _, _, _⟩ :=
      write_aligned r1.k r1.dev (buf.drop 4000) 2000 4000 ⟨0, 1, 0⟩ hk2 (by rw [q1]; decide)
        (by rw [q1]; decide) (by rw [s1]; decide) wf1 (by rw [q1, s1]; exact a2) rfl
        (by rw [s1]; decide) (by rw [q1, c2, List.length_drop]; omega)
    rw [q1, c2] at ret2
    obtain ⟨_, _, hc2⟩ := write_result_cases _ _ _ _ _ _ r2 w2
    rcases hc2 with ⟨hneg, _⟩ | ⟨_, a, ha, _, f2, z2⟩
    · rw [ret2] at hneg; omega
    rw [q1, s1, a2] at ha
    cases ha
    rw [q1, c2] at f2 z2
    exact ⟨r1, r2, w1, ret1, by rw [f1], w2, ret2, by rw [f2], by rw [z2, z1]; rfl⟩

/-- Witness of the amended claim C3: the write of "AB" at offset 0 of an empty store with
quantum 4 and qset 4, and the scenario on a buffer of 6000 zero bytes. -/
theorem write_clips_to_block_witness :
    ((2 : Int) = min ((2 : Nat) : Int) (4 - ((0 : Nat) : Int) % (4 * 4) % 4) ∧
      ((2 : Nat) : Int) = (0 : Nat) + 2) ∧
    ∃ r1 r2,
      scull_write (scull_trim 4000 1000 k0 scull_init_dev).2.2 false
        (scull_trim 4000 1000 k0 scull_init_dev).2.1 (List.replicate 6000 0) 6000 0 = some r1 ∧
      r1.ret = 4000 ∧ r1.f_pos = 4000 ∧
      scull_write r1.k false r1.dev ((List.replicate 6000 0).drop 4000) 2000 4000 = some r2 ∧
      r2.ret = 2000 ∧ r2.f_pos = 6000 ∧ r2.dev.size = 6000 :=
  ⟨write_clips_to_block.1 k0 false ⟨[], 4, 4, 0⟩ [65, 66] 2 0
      ⟨2, ⟨[⟨some [some [65, 66, 0, 0], none, none, none]⟩], 4, 4, 2⟩, 2,
        ⟨k0.grant, k0.junk, 3, 0⟩⟩
      (by decide) (by decide) (by decide) rfl (by decide),
    write_clips_to_block.2 k0 scull_init_dev (List.replicate 6000 0) always_grants_k0
      (by rw [List.length_replicate])⟩

/-- Claim C4 as stated fails: with the positive defaults quantum 2^30 and qset 4 the `int` product
`quantum * qset` wraps to 0, so the write of "AB" at the block-aligned offset 0 of the
truncated store divides by zero and does not return 2. -/
theorem aligned_write_overflowing_defaults :
    ¬ ∃ r, scull_write k0 false (scull_trim (2 ^ 30) 4 k0 scull_init_dev).2.1 [65, 66] 2 0 = some r ∧
      r.ret = 2 := by
  rintro ⟨r, h, _⟩
  have e : scull_write k0 false (scull_trim (2 ^ 30) 4 k0 scull_init_dev).2.1 [65, 66] 2 0 = none :=
    rfl
  rw [e] at h
  cases h

/-- Claim C4, amended (block-aligned write then read on an empty store). On a store just
truncated to positive defaults whose product fits a C `int`, with the lock acquired, an
allocator that grants and valid user buffers: writing `b` (1 to quantum bytes) at an offset
`p` with `p mod quantum = 0` returns `|b|`, the read of `|b|` bytes at `p` that follows
returns `|b|` and the bytes of `b`, and a read at `p + |b|` returns 0 bytes. -/
theorem aligned_write_then_read (k : Kernel) (dev0 : scull_dev) (dq ds : Int) (p : Nat)
    (b : List Byte) (cap count : Nat) (hk : always_grants k) (hq : 0 < dq) (hs : 0 < ds)
    (hrep : dq * ds ≤ INT_MAX) (hp : (p : Int) % dq = 0) (hb1 : 1 ≤ b.length)
    (hb2 : (b.length : Int) ≤ dq) :
    ∃ r1 r2 r3,
      scull_write (scull_trim dq ds k dev0).2.2 false (scull_trim dq ds k dev0).2.1 b b.length p
        = some r1 ∧
      r1.ret = b.length ∧
      scull_read r1.k false r1.dev b.length b.length p = some r2 ∧
      r2.ret = b.length ∧ r2.out = b ∧
      scull_read r2.k false r2.dev cap count (p + b.length) = some r3 ∧
      r3.ret = 0 ∧ r3.out = [] := by
  have hk1 : always_grants (scull_trim dq ds k dev0).2.2 := hk
  have ht : (scull_trim dq ds k dev0).2.1 = ⟨[], dq, ds, 0⟩ := rfl
  rw [ht]
  generalize (scull_trim dq ds k dev0).2.2 = kt at hk1
  have hrep2 : dq * ds < 2 ^ 31 := by unfold INT_MAX at hrep; omega
  have hq2 : dq < 2 ^ 31 := by nlinarith
  have ha := write_addr_exact p dq ds hq hs hrep2
  have hq0 : (p : Int) % (dq * ds) % dq = 0 := by
    rw [Int.emod_emod_of_dvd _ (Dvd.intro ds rfl)]; exact hp
  rw [hq0] at ha
  have hsl := (addr_decompose p dq ds hq hs).2
  have hc : clip b.length dq 0 = b.length := by
    have := clip_eq_min b.length (le_refl 0) hq hq2
    omega
  obtain ⟨r1, blk, w1, ret1, _, _, _, hblk, hlen, htake⟩ :=
    write_aligned kt ⟨[], dq, ds, 0⟩ b b.length p _ hk1 hq hq2 (le_of_lt hs) (by rfl) ha rfl hsl
      (by rw [hc])
  dsimp only at ret1 hlen htake
  rw [hc] at ret1 htake
  obtain ⟨q1, s1, hc1⟩ := write_result_cases _ _ _ _ _ _ r1 w1
  dsimp only at q1 s1 hc1
  rcases hc1 with ⟨hneg, _⟩ | ⟨_, a, ha1, _, _, z1⟩
  · rw [ret1] at hneg; omega
  rw [ha] at ha1
  cases ha1
  dsimp only at z1
  rw [hc] at z1
  have z1 : r1.dev.size = p + b.length := by rw [z1]; omega
  have hrd := read_present r1.k r1.dev b.length b.length p _ blk (by omega)
    (by rw [q1, s1]; exact ha) hblk
  dsimp only at hrd
  have hcm : clamp b.length p r1.dev.size = b.length := by
    unfold clamp
    rw [z1]
    split_ifs <;> omega
  rw [hcm, q1, hc] at hrd
  rw [if_neg (by simp; omega), if_neg (by simp)] at hrd
  simp only [Int.toNat_zero, List.drop_zero, List.take_take, min_self] at hrd
  rw [htake, List.take_length] at hrd
  refine ⟨r1, _, ⟨0, [], r1.dev, p + b.length, r1.k⟩, w1, ret1, hrd, rfl, rfl, ?_, rfl, rfl⟩
  exact read_past_end _ _ _ _ _ (by dsimp only; omega)

/-- Witness of the amended claim C4: "AB" at offset 0 with quantum 4 and qset 4. -/
theorem aligned_write_then_read_witness :
    ∃ r1 r2 r3,
      scull_write (scull_trim 4 4 k0 scull_init_dev).2.2 false
        (scull_trim 4 4 k0 scull_init_dev).2.1 [65, 66] 2 0 = some r1 ∧
      r1.ret = 2 ∧
      scull_read r1.k false r1.dev 2 2 0 = some r2 ∧
      r2.ret = 2 ∧ r2.out = [65, 66] ∧
      scull_read r2.k false r2.dev 2 2 2 = some r3 ∧
      r3.ret = 0 ∧ r3.out = [] :=
  aligned_write_then_read k0 scull_init_dev 4 4 0 [65, 66] 2 2 always_grants_k0 (by decide)
    (by decide) (by decide) (by decide) (by decide) (by decide)

/-- Claim C5 (end-of-store read). With the lock acquired, a read at an offset at or beyond the
size returns 0, stores no byte, and leaves `*f_pos`, the device and the allocator as they
were. -/
theorem read_at_or_beyond_size (k : Kernel) (dev : scull_dev) (cap count pos : Nat)
    (h : dev.size ≤ pos) : scull_read k false dev cap count pos = some ⟨0, [], dev, pos, k⟩ :=
  read_past_end k dev cap count pos h

/-- Witness of claim C5: a read at offset 2 of a store of size 2. -/
theorem read_at_or_beyond_size_witness :
    scull_read k0 false ⟨[⟨some [some [65, 66, 0, 0], none, none, none]⟩], 4, 4, 2⟩ 2 2 2 =
      some ⟨0, [], ⟨[⟨some [some [65, 66, 0, 0], none, none, none]⟩], 4, 4, 2⟩, 2, k0⟩ :=
  read_at_or_beyond_size k0 ⟨[⟨some [some [65, 66, 0, 0], none, none, none]⟩], 4, 4, 2⟩ 2 2 2
    (by decide)

/-- Claim C7 as stated fails: on a store truncated to quantum 4 and qset 4 that received "AB"
at offset 0 (size 2), a read at offset 1 with the count 2^64 - 1 is not clamped, because the
unsigned sum `*f_pos + count` of line 128 wraps to 0. It returns 3 and stores the bytes at
the offsets 1, 2 and 3, two of them beyond the size, where the claim gives
`min (count, size - pos, quantum - byte_offset) = 1`. -/
theorem read_count_wraps_past_size :
    (run k0 (scull_trim 4 4 k0 scull_init_dev).2.1
        [Call.write false [65, 66] 2 0, Call.read false 3 18446744073709551615 1]).map
        (fun t => (t.1.size, t.1.quantum, t.1.qset, block_of t.1.data 0 0, t.2.2)) =
      some (2, 4, 4, some [65, 66, 0, 0], [⟨true, 0, 2, []⟩, ⟨false, 1, 3, [66, 0, 0]⟩]) ∧
    (18446744073709551615 : Nat) = 2 ^ 64 - 1 ∧
    min (18446744073709551615 : Int) (min (2 - 1) (4 - (1 : Int) % (4 * 4) % 4)) = 1 :=
  ⟨rfl, by decide, by decide⟩

/-- Claim C7, amended (read result). In every state reached from a truncated store by read
and write calls, with quantum and qset positive and a product `quantum * qset` that fits a
C `int`: if `pos` is below the size, the block of its group `pos / (quantum * qset)` and
slot `(pos mod (quantum * qset)) / quantum` is present and the sum `pos + count` is below
2^64, then a successful `scull_read` returns
`n = min (count, size - pos, quantum - byte_offset)` with
`byte_offset = (pos mod (quantum * qset)) mod quantum`, stores the `n` bytes of that block
that start at `byte_offset`, and advances `*f_pos` by `n`; it stays below the size and
inside the block, and leaves the device unchanged. -/
theorem read_returns_block_bytes (dq ds : Int) (k : Kernel) (dev0 : scull_dev)
    (calls : List Call) (dev : scull_dev) (k1 : Kernel) (t : List Returned) (kr : Kernel)
    (intr : Bool) (cap count pos : Nat) (blk : Block) (r : ReadResult)
    (hrun : run (scull_trim dq ds k dev0).2.2 (scull_trim dq ds k dev0).2.1 calls
      = some (dev, k1, t))
    (hq : 0 < dev.quantum) (hs : 0 < dev.qset) (hrep : dev.quantum * dev.qset ≤ INT_MAX)
    (hpos : pos < dev.size) (hcount : pos + count < 2 ^ 64)
    (hb : block_of dev.data ((pos : Int) / (dev.quantum * dev.qset)).toNat
      ((pos : Int) % (dev.quantum * dev.qset) / dev.quantum).toNat = some blk)
    (h : scull_read kr intr dev cap count pos = some r) (hr : 0 ≤ r.ret) :
    r.ret = min (count : Int) (min ((dev.size : Int) - pos)
      (dev.quantum - (pos : Int) % (dev.quantum * dev.qset) % dev.quantum)) ∧
    r.out = (blk.drop ((pos : Int) % (dev.quantum * dev.qset) % dev.quantum).toNat).take
      r.ret.toNat ∧
    r.out.length = r.ret.toNat ∧
    (r.f_pos : Int) = pos + r.ret ∧ (pos : Int) + r.ret ≤ dev.size ∧
    (pos : Int) % (dev.quantum * dev.qset) % dev.quantum + r.ret ≤ dev.quantum ∧
    r.dev = dev := by
  unfold INT_MAX at hrep
  have hq3 : dev.quantum < 2 ^ 31 := by nlinarith
  have hlen : dev.data.length ≤ 2 ^ 32 :=
    run_chain_length calls _ _ dev k1 t hrun (by simp [scull_trim])
  have hi0 := Int.ediv_nonneg (Int.ofNat_nonneg pos) (le_of_lt (Int.mul_pos hq hs))
  have hi1 : (pos : Int) / (dev.quantum * dev.qset) < 2 ^ 32 := by
    have := block_of_lt hb
    omega
  have ha : scull_read_addr dev.quantum dev.qset pos =
      some ⟨toInt32 ((pos : Int) / (dev.quantum * dev.qset)),
        (pos : Int) % (dev.quantum * dev.qset) / dev.quantum,
        (pos : Int) % (dev.quantum * dev.qset) % dev.quantum⟩ :=
    write_addr_exact pos dev.quantum dev.qset hq hs (by omega)
  obtain ⟨q0, q1, s0⟩ := write_addr_range hq hq3 ha
  dsimp only at q0 q1 s0
  have hb2 : block_at dev ⟨toInt32 ((pos : Int) / (dev.quantum * dev.qset)),
      (pos : Int) % (dev.quantum * dev.qset) / dev.quantum,
      (pos : Int) % (dev.quantum * dev.qset) % dev.quantum⟩ = some blk := by
    rw [block_at_eq_block_of _ _ s0]
    dsimp only
    rw [loop_count_toInt32 _ hi0 hi1]
    exact hb
  generalize (pos : Int) % (dev.quantum * dev.qset) % dev.quantum = qp at *
  have hclip := clip_eq_min (clamp count pos dev.size) q0 q1 hq3
  have hclamp := clamp_eq_min count pos dev.size hpos hcount
  cases intr with
  | true =>
    rw [read_interrupted] at h
    cases h
    exact absurd hr (by decide : ¬ (0 : Int) ≤ -ERESTARTSYS)
  | false =>
    rw [read_present kr dev cap count pos _ blk hpos ha hb2] at h
    dsimp only at h
    split at h
    · simp at h
    rename_i hin
    split at h
    · cases h
      exact absurd hr (by decide : ¬ (0 : Int) ≤ -EFAULT)
    rename_i hcap
    cases h
    simp only [not_or, not_lt, gt_iff_lt, ne_eq, Decidable.not_not] at hin hcap
    have hcap : clip (clamp count pos dev.size) dev.quantum qp ≤ cap := by omega
    dsimp only
    refine ⟨by omega, ?_, ?_, by omega, by omega, by omega, rfl⟩
    · rw [List.take_take, Int.toNat_ofNat, min_eq_right hcap]
    · rw [List.take_take, Int.toNat_ofNat, min_eq_right hcap, List.length_take,
        List.length_drop]
      omega

/-- Witness of the amended claim C7: reading 3 bytes at offset 1 after "AB" was written at
offset 0 of a store truncated to quantum 4 and qset 4. -/
theorem read_returns_block_bytes_witness :
    (1 : Int) = min ((3 : Nat) : Int) (min (((2 : Nat) : Int) - (1 : Nat))
      (4 - ((1 : Nat) : Int) % (4 * 4) % 4)) ∧
    [66] = (([65, 66, 0, 0] : Block).drop (((1 : Nat) : Int) % (4 * 4) % 4).toNat).take
      (1 : Int).toNat ∧
    ([66] : List Byte).length = (1 : Int).toNat ∧
    ((2 : Nat) : Int) = (1 : Nat) + 1 ∧ ((1 : Nat) : Int) + 1 ≤ (2 : Nat) ∧
    ((1 : Nat) : Int) % (4 * 4) % 4 + 1 ≤ 4 ∧
    (⟨[⟨some [some [65, 66, 0, 0], none, none, none]⟩], 4, 4, 2⟩ : scull_dev) =
      ⟨[⟨some [some [65, 66, 0, 0], none, none, none]⟩], 4, 4, 2⟩ :=
  read_returns_block_bytes 4 4 k0 scull_init_dev [Call.write false [65, 66] 2 0]
    ⟨[⟨some [some [65, 66, 0, 0], none, none, none]⟩], 4, 4, 2⟩ ⟨k0.grant, k0.junk, 3, 0⟩
    [⟨true, 0, 2, []⟩] k0 false 3 3 1 [65, 66, 0, 0]
    ⟨1, [66], ⟨[⟨some [some [65, 66, 0, 0], none, none, none]⟩], 4, 4, 2⟩, 2, k0⟩
    rfl (by decide) (by decide) (by decide) (by decide) (by decide) (by decide) rfl
    (by decide)

/-- Claim C8 (truncate postcondition). For every device `scull_trim` returns 0 and leaves an
empty chain, size 0 and the configured default quantum and qset; a read at offset 0 that
follows stores no byte, and returns 0 when the lock is acquired. -/
theorem trim_resets_store (dq ds : Int) (k : Kernel) (dev : scull_dev) (intr : Bool)
    (cap count : Nat) :
    (scull_trim dq ds k dev).1 = 0 ∧
    (scull_trim dq ds k dev).2.1 = ⟨[], dq, ds, 0⟩ ∧
    ∃ r, scull_read (scull_trim dq ds k dev).2.2 intr (scull_trim dq ds k dev).2.1 cap count 0
        = some r ∧
      r.out = [] ∧ (intr = false → r.ret = 0) ∧ r.f_pos = 0 ∧
      r.dev = (scull_trim dq ds k dev).2.1 := by
  refine ⟨rfl, rfl, ?_⟩
  cases intr with
  | true => exact ⟨_, read_interrupted _ _ _ _ _, rfl, by simp, rfl, rfl⟩
  | false =>
    exact ⟨_, read_past_end _ _ _ _ _ (Nat.le_refl 0), rfl, fun _ => rfl, rfl, rfl⟩

/-- Claim C9 (the size is the high-water mark of the writes). After any sequence of read and
write calls on a store just truncated, the size is the maximum of `start + returned count`
over the successful writes (0 when there is none); a single successful write sets the size to
the larger of the old size and the new `*f_pos`. -/
theorem size_is_high_water_mark :
    (∀ (dq ds : Int) (k : Kernel) (dev0 : scull_dev) (calls : List Call) (dev1 : scull_dev)
        (k1 : Kernel) (t : List Returned),
        run (scull_trim dq ds k dev0).2.2 (scull_trim dq ds k dev0).2.1 calls = some (dev1, k1, t) →
        dev1.size = high_mark t) ∧
    (∀ (k : Kernel) (intr : Bool) (dev : scull_dev) (buf : List Byte) (count p : Nat)
        (r : WriteResult), scull_write k intr dev buf count p = some r → 0 ≤ r.ret →
        r.dev.size = max dev.size r.f_pos ∧ (r.f_pos : Int) = p + r.ret) := by
  constructor
  · intro dq ds k dev0 calls dev1 k1 t h
    have := (run_size calls _ _ dev1 k1 t h).1
    rw [this]
    exact Nat.max_eq_right (Nat.zero_le _)
  · intro k intr dev buf count p r h hr
    obtain ⟨_, _, hc⟩ := write_result_cases k intr dev buf count p r h
    rcases hc with ⟨hneg, _⟩ | ⟨_, a, _, h1, h2, h3⟩
    · omega
    · exact ⟨by rw [h3, h2], by rw [h2, h1]; simp⟩

/-- Witness of claim C9: two writes and a read on a store truncated to quantum 4, qset 4. -/
theorem size_is_high_water_mark_witness :
    (⟨[⟨some [some [65, 66, 0, 0], some [67, 68, 0, 0], none, none]⟩], 4, 4, 6⟩ : scull_dev).size
      = high_mark [⟨true, 0, 2, []⟩, ⟨true, 4, 2, []⟩, ⟨false, 0, 2, [65, 66]⟩] :=
  size_is_high_water_mark.1 4 4 k0 scull_init_dev
    [Call.write false [65, 66] 2 0, Call.write false [67, 68] 2 4, Call.read false 2 2 0]
    ⟨[⟨some [some [65, 66, 0, 0], some [67, 68, 0, 0], none, none]⟩], 4, 4, 6⟩
    ⟨k0.grant, k0.junk, 4, 0⟩ [⟨true, 0, 2, []⟩, ⟨true, 4, 2, []⟩, ⟨false, 0, 2, [65, 66]⟩] rfl

/-- Claim C10 (addressing is a correct decomposition). For an offset `p`, positive quantum and
qset with `quantum * qset` and `p / (quantum * qset)` representable in a C `int`, the read
path and the write path compute the same `item`, `s_pos` and `q_pos`; they are the quotient,
the slot and the byte of the mathematical decomposition, and
`p = item * quantum * qset + s_pos * quantum + q_pos` with `0 ≤ s_pos < qset` and
`0 ≤ q_pos < quantum`. -/
theorem addressing_decomposes (p : Nat) (quantum qset : Int) (hq : 0 < quantum) (hs : 0 < qset)
    (hrep : quantum * qset ≤ INT_MAX) (hitem : (p : Int) / (quantum * qset) ≤ INT_MAX) :
    ∃ a, scull_read_addr quantum qset p = some a ∧ scull_write_addr quantum qset p = some a ∧
      a.item = (p : Int) / (quantum * qset) ∧
      a.s_pos = (p : Int) % (quantum * qset) / quantum ∧
      a.q_pos = (p : Int) % (quantum * qset) % quantum ∧
      (p : Int) = a.item * quantum * qset + a.s_pos * quantum + a.q_pos ∧
      0 ≤ a.s_pos ∧ a.s_pos < qset ∧ 0 ≤ a.q_pos ∧ a.q_pos < quantum := by
  unfold INT_MAX at hrep hitem
  have hw : 0 < quantum * qset := Int.mul_pos hq hs
  have hi0 := Int.ediv_nonneg (Int.ofNat_nonneg p) (le_of_lt hw)
  have ha := write_addr_exact p quantum qset hq hs (by omega)
  rw [toInt32_of_range (by omega) (by omega)] at ha
  obtain ⟨hdec, hsl⟩ := addr_decompose p quantum qset hq hs
  have r1 := Int.emod_nonneg (p : Int) (show quantum * qset ≠ 0 by omega)
  refine ⟨_, ha, ha, rfl, rfl, rfl, hdec, Int.ediv_nonneg r1 (le_of_lt hq), hsl,
    Int.emod_nonneg _ (by omega), Int.emod_lt_of_pos _ hq⟩

/-- Witness of claim C10: offset 6001 with quantum 4000 and qset 1000. -/
theorem addressing_decomposes_witness :
    ∃ a, scull_read_addr 4000 1000 6001 = some a ∧ scull_write_addr 4000 1000 6001 = some a ∧
      a.item = ((6001 : Nat) : Int) / (4000 * 1000) ∧
      a.s_pos = ((6001 : Nat) : Int) % (4000 * 1000) / 4000 ∧
      a.q_pos = ((6001 : Nat) : Int) % (4000 * 1000) % 4000 ∧
      ((6001 : Nat) : Int) = a.item * 4000 * 1000 + a.s_pos * 4000 + a.q_pos ∧
      0 ≤ a.s_pos ∧ a.s_pos < 1000 ∧ 0 ≤ a.q_pos ∧ a.q_pos < 4000 :=
  addressing_decomposes 6001 4000 1000 (by decide) (by decide) (by decide) (by decide)

/-! ## Frame properties of the traversal, the read and the write -/

theorem kmalloc_calls (k : Kernel) (size : Int) : (kmalloc k size).2.calls = k.calls + 1 := rfl

theorem follow_walk_appends (steps : Nat) : ∀ (k : Kernel) (chain : List scull_qset) (i : Nat),
    ∃ j, (follow_walk k chain i steps).2.1 = chain ++ List.replicate j empty_qset := by
  induction steps with
  | zero => intro k chain i; exact ⟨0, by simp [follow_walk]⟩
  | succ n ih =>
    intro k chain i
    simp only [follow_walk]
    split
    · exact ih _ _ _
    · split
      · obtain ⟨j, hj⟩ := ih (kmalloc k 16).2 (chain ++ [empty_qset]) (i + 1)
        refine ⟨j + 1, ?_⟩
        rw [hj, List.append_assoc, List.replicate_succ]
        rfl
      · exact ⟨0, by simp⟩

theorem scull_follow_appends (k : Kernel) (dev : scull_dev) (n : Int) :
    ∃ j, (scull_follow k dev n).2.1 = { dev with data := dev.data ++ List.replicate j empty_qset } := by
  unfold scull_follow
  split
  · rename_i he
    dsimp only
    split
    · obtain ⟨j, hj⟩ := follow_walk_appends (loop_count n) (kmalloc k 16).2 [empty_qset] 0
      refine ⟨j + 1, ?_⟩
      dsimp only
      rw [hj, he, List.replicate_succ]
      rfl
    · refine ⟨0, ?_⟩
      cases dev
      simp
  · obtain ⟨j, hj⟩ := follow_walk_appends (loop_count n) k dev.data 0
    exact ⟨j, by dsimp only; rw [hj]⟩

/-- The allocations of the loop: the counter only grows, a `NULL` result comes from a refused
request and a node comes from granted requests only. -/
theorem follow_walk_calls (steps : Nat) : ∀ (k : Kernel) (chain : List scull_qset) (i : Nat),
    k.calls ≤ (follow_walk k chain i steps).2.2.calls ∧
    ((follow_walk k chain i steps).1 = none → ¬ attempted_ok k (follow_walk k chain i steps).2.2) ∧
    ((follow_walk k chain i steps).1 ≠ none → attempted_ok k (follow_walk k chain i steps).2.2) := by
  induction steps with
  | zero =>
    intro k chain i
    refine ⟨Nat.le_refl _, by simp [follow_walk], fun _ j h1 h2 => ?_⟩
    simp only [follow_walk] at h2
    omega
  | succ n ih =>
    intro k chain i
    simp only [follow_walk]
    split
    · exact ih _ _ _
    · split
      · rename_i hg
        obtain ⟨c1, c2, c3⟩ := ih (kmalloc k 16).2 (chain ++ [empty_qset]) (i + 1)
        have hgr : k.grant k.calls = true := by simpa [kmalloc] using hg
        rw [kmalloc_calls] at c1
        refine ⟨by omega, fun hn hok => c2 hn ?_, fun hn j h1 h2 => ?_⟩
        · intro j h1 h2
          exact hok j (by rw [kmalloc_calls] at h1; omega) h2
        · rcases Nat.eq_or_lt_of_le h1 with e | e
          · rw [← e]; exact hgr
          · exact c3 hn j (by rw [kmalloc_calls]; omega) h2
      · rename_i hg
        have hgr : k.grant k.calls = false := by simpa [kmalloc] using hg
        refine ⟨by rw [kmalloc_calls]; omega, fun _ hok => ?_, fun hn => absurd rfl hn⟩
        have := hok k.calls (Nat.le_refl _) (by rw [kmalloc_calls]; omega)
        rw [hgr] at this
        cases this

theorem scull_follow_calls (k : Kernel) (dev : scull_dev) (n : Int) :
    ((scull_follow k dev n).1 = none → ¬ attempted_ok k (scull_follow k dev n).2.2) ∧
    ((scull_follow k dev n).1 ≠ none → attempted_ok k (scull_follow k dev n).2.2) := by
  unfold scull_follow
  split
  · dsimp only
    split
    · rename_i hg
      have hgr : k.grant k.calls = true := by simpa [kmalloc] using hg
      obtain ⟨c1, c2, c3⟩ := follow_walk_calls (loop_count n) (kmalloc k 16).2 [empty_qset] 0
      rw [kmalloc_calls] at c1
      refine ⟨fun hn hok => c2 hn ?_, fun hn j h1 h2 => ?_⟩
      · intro j h1 h2
        exact hok j (by rw [kmalloc_calls] at h1; omega) h2
      · rcases Nat.eq_or_lt_of_le h1 with e | e
        · rw [← e]; exact hgr
        · exact c3 hn j (by rw [kmalloc_calls]; omega) h2
    · rename_i hg
      have hgr : k.grant k.calls = false := by simpa [kmalloc] using hg
      refine ⟨fun _ hok => ?_, fun hn => absurd rfl hn⟩
      have := hok k.calls (Nat.le_refl _) (by rw [kmalloc_calls]; omega)
      rw [hgr] at this
      cases this
  · obtain ⟨_, c2, c3⟩ := follow_walk_calls (loop_count n) k dev.data 0
    exact ⟨c2, c3⟩

/-- Whatever `scull_read` returns, the device differs from the old one by empty groups at the
end of the chain only. -/
theorem read_result_chain (k : Kernel) (intr : Bool) (dev : scull_dev) (cap count p : Nat)
    (r : ReadResult) (h : scull_read k intr dev cap count p = some r) :
    ∃ j, r.dev = { dev with data := dev.data ++ List.replicate j empty_qset } := by
  have h0 : ∃ j, dev = { dev with data := dev.data ++ List.replicate j empty_qset } :=
    ⟨0, by cases dev; simp⟩
  unfold scull_read at h
  simp only [] at h
  split at h
  · cases h; exact h0
  split at h
  · cases h; exact h0
  split at h
  · simp at h
  rename_i a ha
  have hf := scull_follow_appends k dev a.item
  split at h
  · cases h; exact hf
  split at h
  · simp at h
  split at h
  · cases h; exact hf
  split at h
  · simp at h
  · cases h; exact hf
  · split at h
    · simp at h
    split at h
    · cases h; exact hf
    · cases h; exact hf

/-- An error of `scull_read` leaves `*f_pos` alone. -/
theorem read_error_pos (k : Kernel) (intr : Bool) (dev : scull_dev) (cap count p : Nat)
    (r : ReadResult) (h : scull_read k intr dev cap count p = some r) (hr : r.ret < 0) :
    r.f_pos = p := by
  unfold scull_read at h
  simp only [] at h
  split at h
  · cases h; rfl
  split at h
  · cases h; rfl
  split at h
  · simp at h
  split at h
  · cases h; rfl
  split at h
  · simp at h
  split at h
  · cases h; rfl
  split at h
  · simp at h
  · cases h; rfl
  · split at h
    · simp at h
    split at h
    · cases h; rfl
    · cases h
      simp at hr
      omega

theorem block_of_get {chain : List scull_qset} {i : Nat} {node : scull_qset}
    (h : chain[i]? = some node) (s : Nat) :
    block_of chain i s = match node.data with
      | none => none
      | some arr => (arr[s]?).join := by
  simp only [block_of, h]

theorem block_of_append_empty (chain : List scull_qset) (j i s : Nat) :
    block_of (chain ++ List.replicate j empty_qset) i s = block_of chain i s := by
  by_cases hi : i < chain.length
  · simp only [block_of, List.getElem?_append_left hi]
  · have hn : chain[i]? = none := List.getElem?_eq_none (by omega)
    simp only [block_of, hn, List.getElem?_append_right (Nat.le_of_not_lt hi),
      List.getElem?_replicate]
    split_ifs <;> rfl

theorem block_of_set_slots (chain : List scull_qset) (i : Nat) (arr : List (Option Block))
    (hi : i < chain.length) (i1 s : Nat) :
    block_of (set_slots chain i arr) i1 s =
      if i1 = i then (arr[s]?).join else block_of chain i1 s := by
  unfold set_slots
  by_cases e : i1 = i
  · subst e
    simp only [block_of, List.getElem?_set_self hi, if_true]
  · have e2 : i ≠ i1 := fun h => e h.symm
    simp only [block_of, List.getElem?_set_ne e2, if_neg e]

theorem slot_some {arr : List (Option Block)} {idx : Int} {b : Option Block}
    (h : slot arr idx = some b) : 0 ≤ idx ∧ arr[idx.toNat]? = some b := by
  unfold slot at h
  split at h
  · simp at h
  · exact ⟨by omega, h⟩

theorem join_set_ne (arr : List (Option Block)) (x s : Nat) (v : Option Block) (h : s ≠ x) :
    ((arr.set x v)[s]?).join = (arr[s]?).join := by
  rw [List.getElem?_set_ne (fun e => h e.symm)]

theorem write_slots_cases {k : Kernel} {qset : Int} {node : scull_qset}
    {arr : List (Option Block)} (h : (write_slots k qset node).1 = some arr) :
    node.data = some arr ∨ (node.data = none ∧ arr = List.replicate qset.toNat none) := by
  unfold write_slots at h
  split at h
  · rename_i arr0 he
    simp only [Option.some.injEq] at h
    subst h
    exact Or.inl he
  · rename_i he
    dsimp only at h
    split at h
    · simp only [Option.some.injEq] at h
      exact Or.inr ⟨he, h.symm⟩
    · simp at h

theorem write_block_some {k : Kernel} {quantum : Int} {blk blk0 : Block}
    (h : (write_block k quantum (some blk)).1 = some blk0) : blk0 = blk := by
  simp only [write_block, Option.some.injEq] at h
  exact h.symm

/-- The slot array that `scull_write` works on holds the blocks the node held before. -/
theorem write_slots_blocks {chain : List scull_qset} {i : Nat} {node : scull_qset} {k : Kernel}
    {qset : Int} {arr : List (Option Block)} (hn : chain[i]? = some node)
    (h : (write_slots k qset node).1 = some arr) (s : Nat) :
    (arr[s]?).join = block_of chain i s := by
  rw [block_of_get hn]
  rcases write_slots_cases h with e | ⟨e, e2⟩
  · rw [e]
  · rw [e, e2, List.getElem?_replicate]
    split_ifs <;> rfl

theorem set_same_block {arr : List (Option Block)} {sp : Nat} {b : Option Block} {blk0 : Block}
    (hb : arr[sp]? = some b) (hw : ∀ blk, b = some blk → blk0 = blk) (blk : Block)
    (h : (arr[sp]?).join = some blk) : ((arr.set sp (some blk0))[sp]?).join = some blk := by
  have hlt : sp < arr.length := by
    by_contra hc
    rw [List.getElem?_eq_none (by omega)] at hb
    cases hb
  rw [hb] at h
  have hb2 : b = some blk := h
  rw [List.getElem?_set_self hlt, hw blk hb2]
  rfl

/-- What a defined result of `scull_write` can have changed: nothing at all when the lock was
not acquired; otherwise the chain has not shrunk, a success reached its group, the blocks
outside the slots `s_pos` and `s_pos + q_pos` of that group are as before (all blocks, when
the result is `-ENOMEM`), and a block that slot `s_pos` already held stays as it was unless
it is the destination. -/
theorem write_frame (k : Kernel) (intr : Bool) (dev : scull_dev) (buf : List Byte)
    (count p : Nat) (r : WriteResult) (h : scull_write k intr dev buf count p = some r) :
    (r.ret = -ERESTARTSYS ∧ r.dev = dev) ∨
    ∃ a, scull_write_addr dev.quantum dev.qset p = some a ∧ r.ret ≠ -ERESTARTSYS ∧
      dev.data.length ≤ r.dev.data.length ∧
      (0 ≤ r.ret → loop_count a.item < r.dev.data.length) ∧
      (∀ i s, (r.ret ≠ -ENOMEM →
          (i ≠ loop_count a.item ∨
            (s ≠ a.s_pos.toNat ∧ s ≠ (toInt32 (a.s_pos + a.q_pos)).toNat))) →
        block_of r.dev.data i s = block_of dev.data i s) ∧
      (∀ blk, a.s_pos.toNat ≠ (toInt32 (a.s_pos + a.q_pos)).toNat →
        block_of dev.data (loop_count a.item) a.s_pos.toNat = some blk →
        block_of r.dev.data (loop_count a.item) a.s_pos.toNat = some blk) := by
  unfold scull_write at h
  simp only [] at h
  split at h
  · cases h; exact Or.inl ⟨rfl, rfl⟩
  split at h
  · simp at h
  rename_i a ha
  refine Or.inr ⟨a, ha, ?_⟩
  obtain ⟨j, hfp⟩ := scull_follow_appends k dev a.item
  have hfd : (scull_follow k dev a.item).2.1.data = dev.data ++ List.replicate j empty_qset := by
    rw [hfp]
  have hflen : dev.data.length ≤ (scull_follow k dev a.item).2.1.data.length := by
    rw [hfd, List.length_append]; omega
  have hfb : ∀ i s, block_of (scull_follow k dev a.item).2.1.data i s = block_of dev.data i s := by
    intro i s; rw [hfd]; exact block_of_append_empty _ _ _ _
  split at h
  · cases h
    exact ⟨(by decide : (-ENOMEM : Int) ≠ -ERESTARTSYS), hflen, fun hr => absurd hr (by decide : ¬ (0 : Int) ≤ -ENOMEM),
      fun i s _ => hfb i s, fun blk _ hb => by rw [hfb]; exact hb⟩
  rename_i i hi
  obtain ⟨hi1, _⟩ := scull_follow_some k dev a.item i hi
  subst hi1
  split at h
  · simp at h
  rename_i node hnode
  have hilt : loop_count a.item < (scull_follow k dev a.item).2.1.data.length := by
    by_contra hc
    rw [List.getElem?_eq_none (by omega)] at hnode
    cases hnode
  split at h
  · cases h
    exact ⟨(by decide : (-ENOMEM : Int) ≠ -ERESTARTSYS), hflen, fun hr => absurd hr (by decide : ¬ (0 : Int) ≤ -ENOMEM),
      fun i s _ => hfb i s, fun blk _ hb => by rw [hfb]; exact hb⟩
  rename_i arr harr
  have hab := write_slots_blocks hnode harr
  split at h
  · simp at h
  rename_i b hb
  obtain ⟨_, hb⟩ := slot_some hb
  split at h
  · cases h
    dsimp only
    refine ⟨(by decide : (-ENOMEM : Int) ≠ -ERESTARTSYS), by simpa [set_slots] using hflen,
      fun hr => absurd hr (by decide : ¬ (0 : Int) ≤ -ENOMEM), fun i s _ => ?_, fun blk _ hbl => ?_⟩
    · rw [block_of_set_slots _ _ _ hilt]
      split_ifs with e
      · rw [e, hab, hfb]
      · exact hfb i s
    · rw [block_of_set_slots _ _ _ hilt, if_pos rfl, hab, hfb]; exact hbl
  rename_i blk0 hw
  have hw0 : ∀ blk, b = some blk → blk0 = blk := by
    intro blk e
    rw [e] at hw
    exact write_block_some hw
  -- the blocks of the group once slot `s_pos` is stored back
  have h1 : ∀ s, s ≠ a.s_pos.toNat →
      ((arr.set a.s_pos.toNat (some blk0))[s]?).join = block_of dev.data (loop_count a.item) s := by
    intro s hs
    rw [join_set_ne _ _ _ _ hs, hab, hfb]
  have h2 : ∀ blk, block_of dev.data (loop_count a.item) a.s_pos.toNat = some blk →
      ((arr.set a.s_pos.toNat (some blk0))[a.s_pos.toNat]?).join = some blk := by
    intro blk hbl
    exact set_same_block hb hw0 blk (by rw [hab, hfb]; exact hbl)
  split at h
  · simp at h
  · split at h
    · cases h
      dsimp only
      refine ⟨(by decide : (0 : Int) ≠ -ERESTARTSYS), by simpa [set_slots] using hflen, fun _ => by simpa [set_slots] using hilt,
        fun i s hc => ?_, fun blk _ hbl => ?_⟩
      · rw [block_of_set_slots _ _ _ hilt]
        split_ifs with e
        · rcases hc (by decide) with c | c
          · exact absurd e c
          · rw [e]; exact h1 s c.1
        · exact hfb i s
      · rw [block_of_set_slots _ _ _ hilt, if_pos rfl]; exact h2 blk hbl
    · simp at h
  · split at h
    · simp at h
    split at h
    · cases h
      dsimp only
      refine ⟨(by decide : (-EFAULT : Int) ≠ -ERESTARTSYS), by simpa [set_slots] using hflen,
        fun hr => absurd hr (by decide : ¬ (0 : Int) ≤ -EFAULT), fun i s hc => ?_,
        fun blk hne hbl => ?_⟩
      · rw [block_of_set_slots _ _ _ hilt]
        split_ifs with e
        · rcases hc (by decide) with c | c
          · exact absurd e c
          · rw [e, join_set_ne _ _ _ _ c.2]; exact h1 s c.1
        · exact hfb i s
      · rw [block_of_set_slots _ _ _ hilt, if_pos rfl, join_set_ne _ _ _ _ hne]
        exact h2 blk hbl
    · cases h
      dsimp only
      have hpos : (clip count dev.quantum a.q_pos : Int) ≠ -ERESTARTSYS := by
        have : (0 : Int) ≤ clip count dev.quantum a.q_pos := Int.ofNat_nonneg _
        unfold ERESTARTSYS; omega
      refine ⟨hpos, by simpa [set_slots] using hflen, fun _ => by simpa [set_slots] using hilt,
        fun i s hc => ?_, fun blk hne hbl => ?_⟩
      · rw [block_of_set_slots _ _ _ hilt]
        split_ifs with e
        · have hne : (clip count dev.quantum a.q_pos : Int) ≠ -ENOMEM := by
            have : (0 : Int) ≤ clip count dev.quantum a.q_pos := Int.ofNat_nonneg _
            unfold ENOMEM; omega
          rcases hc hne with c | c
          · exact absurd e c
          · rw [e, join_set_ne _ _ _ _ c.2]; exact h1 s c.1
        · exact hfb i s
      · rw [block_of_set_slots _ _ _ hilt, if_pos rfl, join_set_ne _ _ _ _ hne]
        exact h2 blk hbl

/-- The error codes of `scull_write`, and the interrupted call. -/
theorem write_error_codes (k : Kernel) (intr : Bool) (dev : scull_dev) (buf : List Byte)
    (count p : Nat) (r : WriteResult) (h : scull_write k intr dev buf count p = some r) :
    (intr = true → r.ret = -ERESTARTSYS) ∧
    (r.ret < 0 → r.ret = -ERESTARTSYS ∨ r.ret = -ENOMEM ∨ r.ret = -EFAULT) := by
  unfold scull_write at h
  simp only [] at h
  split at h
  · cases h; exact ⟨fun _ => rfl, fun _ => Or.inl rfl⟩
  rename_i hi
  have hi : intr = true → r.ret = -ERESTARTSYS := fun e => absurd e hi
  split at h
  · simp at h
  split at h
  · cases h; exact ⟨hi, fun _ => Or.inr (Or.inl rfl)⟩
  split at h
  · simp at h
  split at h
  · cases h; exact ⟨hi, fun _ => Or.inr (Or.inl rfl)⟩
  split at h
  · simp at h
  split at h
  · cases h; exact ⟨hi, fun _ => Or.inr (Or.inl rfl)⟩
  split at h
  · simp at h
  · split at h
    · cases h; exact ⟨hi, fun hr => absurd hr (by decide : ¬ ((0 : Int) < 0))⟩
    · simp at h
  · split at h
    · simp at h
    split at h
    · cases h; exact ⟨hi, fun _ => Or.inr (Or.inr rfl)⟩
    · cases h
      refine ⟨hi, fun hr => ?_⟩
      dsimp only at hr
      omega

/-- The error codes of `scull_read`, and the interrupted call. -/
theorem read_error_codes (k : Kernel) (intr : Bool) (dev : scull_dev) (cap count p : Nat)
    (r : ReadResult) (h : scull_read k intr dev cap count p = some r) :
    (intr = true → r.ret = -ERESTARTSYS) ∧
    (r.ret < 0 → r.ret = -ERESTARTSYS ∨ r.ret = -EFAULT) := by
  cases intr with
  | true =>
    rw [read_interrupted] at h
    cases h
    exact ⟨fun _ => rfl, fun _ => Or.inl rfl⟩
  | false =>
    refine ⟨fun e => Bool.noConfusion e, fun hr => ?_⟩
    unfold scull_read at h
    simp only [Bool.false_eq_true, if_false] at h
    split at h
    · cases h; exact absurd hr (by decide : ¬ ((0 : Int) < 0))
    split at h
    · simp at h
    split at h
    · cases h; exact absurd hr (by decide : ¬ ((0 : Int) < 0))
    split at h
    · simp at h
    split at h
    · cases h; exact absurd hr (by decide : ¬ ((0 : Int) < 0))
    split at h
    · simp at h
    · cases h; exact absurd hr (by decide : ¬ ((0 : Int) < 0))
    · split at h
      · simp at h
      split at h
      · cases h; exact Or.inr rfl
      · cases h
        dsimp only at hr
        omega

/-- A read keeps the chain covering the size. -/
theorem read_covered (k : Kernel) (intr : Bool) (dev : scull_dev) (cap count p : Nat)
    (r : ReadResult) (h : scull_read k intr dev cap count p = some r) (hw : 0 ≤ dev.qset * dev.quantum)
    (hinv : (dev.size : Int) ≤ dev.data.length * (dev.qset * dev.quantum)) :
    (r.dev.size : Int) ≤ r.dev.data.length * (r.dev.qset * r.dev.quantum) := by
  obtain ⟨j, hj⟩ := read_result_chain k intr dev cap count p r h
  rw [hj]
  dsimp only
  rw [List.length_append, List.length_replicate]
  push_cast
  nlinarith [Int.ofNat_nonneg j]

/-- A write whose group index fits a C `int` keeps the chain covering the size. -/
theorem write_covered (k : Kernel) (intr : Bool) (dev : scull_dev) (buf : List Byte)
    (count p : Nat) (r : WriteResult) (h : scull_write k intr dev buf count p = some r)
    (hq : 0 < dev.quantum) (hs : 0 < dev.qset) (hrep : dev.quantum * dev.qset < 2 ^ 31)
    (hitem : (p : Int) / (dev.quantum * dev.qset) < 2 ^ 31)
    (hinv : (dev.size : Int) ≤ dev.data.length * (dev.qset * dev.quantum)) :
    (r.dev.size : Int) ≤ r.dev.data.length * (r.dev.qset * r.dev.quantum) := by
  obtain ⟨eq, es, hc⟩ := write_result_cases k intr dev buf count p r h
  have hw : 0 < dev.qset * dev.quantum := Int.mul_pos hs hq
  rw [eq, es]
  rcases write_frame k intr dev buf count p r h with ⟨_, hd⟩ | ⟨a, ha, _, hlen, hreach, _, _⟩
  · rw [hd]; exact hinv
  have hlen2 : (dev.data.length : Int) ≤ r.dev.data.length := by exact_mod_cast hlen
  rcases hc with ⟨_, _, hz⟩ | ⟨_, a1, ha1, hret, _, hz⟩
  · rw [hz]
    exact le_trans hinv (mul_le_mul_of_nonneg_right hlen2 (le_of_lt hw))
  · rw [ha] at ha1
    cases ha1
    have hret0 : 0 ≤ r.ret := by rw [hret]; exact Int.ofNat_nonneg _
    have hreach := hreach hret0
    have hexact := write_addr_exact p dev.quantum dev.qset hq hs hrep
    have hi0 := Int.ediv_nonneg (Int.ofNat_nonneg p) (le_of_lt (Int.mul_pos hq hs))
    rw [toInt32_of_range (x := (p : Int) / (dev.quantum * dev.qset)) (by omega) hitem, ha] at hexact
    simp only [Option.some.injEq] at hexact
    obtain ⟨hdec, hsl⟩ := addr_decompose p dev.quantum dev.qset hq hs
    have hq2 : dev.quantum < 2 ^ 31 := by nlinarith
    obtain ⟨q0, q1, _⟩ := write_addr_range hq hq2 ha
    obtain ⟨_, hcl⟩ := clip_le count dev.quantum a.q_pos q0 q1 hq2
    have hlc : loop_count a.item = a.item.toNat := by
      rw [hexact]; exact loop_count_of_nonneg _ hi0 hitem
    have hitem1 : a.item + 1 ≤ (r.dev.data.length : Int) := by
      rw [hlc] at hreach
      have : a.item = ((p : Int) / (dev.quantum * dev.qset)) := by rw [hexact]
      omega
    have hsp : a.s_pos = (p : Int) % (dev.quantum * dev.qset) / dev.quantum := by rw [hexact]
    have hqp : a.q_pos = (p : Int) % (dev.quantum * dev.qset) % dev.quantum := by rw [hexact]
    have hit : a.item = (p : Int) / (dev.quantum * dev.qset) := by rw [hexact]
    rw [← hit, ← hsp, ← hqp] at hdec
    rw [← hsp] at hsl
    have hn : (clip count dev.quantum a.q_pos : Int) ≤ dev.quantum - a.q_pos := by omega
    have hpn : (p : Int) + clip count dev.quantum a.q_pos ≤ (a.item + 1) * (dev.qset * dev.quantum) := by
      have : (a.s_pos + 1) * dev.quantum ≤ dev.qset * dev.quantum :=
        mul_le_mul_of_nonneg_right (by omega) (le_of_lt hq)
      nlinarith
    have hfin : (a.item + 1) * (dev.qset * dev.quantum) ≤ r.dev.data.length * (dev.qset * dev.quantum) :=
      mul_le_mul_of_nonneg_right hitem1 (le_of_lt hw)
    have hold : (dev.size : Int) ≤ r.dev.data.length * (dev.qset * dev.quantum) :=
      le_trans hinv (mul_le_mul_of_nonneg_right hlen2 (le_of_lt hw))
    rw [hz, Nat.cast_max]
    exact max_le hold (by push_cast; exact le_trans hpn hfin)

/-- A run whose writes fit keeps the chain covering the size. -/
theorem run_covered (calls : List Call) : ∀ (k : Kernel) (dev : scull_dev) (dev1 : scull_dev)
    (k1 : Kernel) (t : List Returned), run k dev calls = some (dev1, k1, t) →
    0 < dev.quantum → 0 < dev.qset → dev.quantum * dev.qset < 2 ^ 31 →
    offsets_fit dev.quantum dev.qset calls = true →
    (dev.size : Int) ≤ dev.data.length * (dev.qset * dev.quantum) →
    (dev1.size : Int) ≤ dev1.data.length * (dev1.qset * dev1.quantum) := by
  induction calls with
  | nil =>
    intro k dev dev1 k1 t h _ _ _ _ hinv
    simp only [run, Option.some.injEq, Prod.mk.injEq] at h
    rw [← h.1]; exact hinv
  | cons c rest ih =>
    intro k dev dev1 k1 t h hq hs hrep hfit hinv
    simp only [offsets_fit, List.all_cons, Bool.and_eq_true] at hfit
    cases c with
    | read intr cap count p =>
      simp only [run] at h
      split at h
      · simp at h
      rename_i r hr
      split at h
      · simp at h
      rename_i t1 ht1
      simp only [Option.some.injEq, Prod.mk.injEq] at h
      obtain ⟨f1, f2, _⟩ := read_result_fields k intr dev cap count p r hr
      have := ih r.k r.dev t1.1 t1.2.1 t1.2.2 ht1 (by rw [f1]; exact hq) (by rw [f2]; exact hs)
        (by rw [f1, f2]; exact hrep) (by rw [f1, f2]; exact hfit.2)
        (read_covered k intr dev cap count p r hr (le_of_lt (Int.mul_pos hs hq)) hinv)
      rw [← h.1]; exact this
    | write intr buf count p =>
      simp only [run] at h
      split at h
      · simp at h
      rename_i r hr
      split at h
      · simp at h
      rename_i t1 ht1
      simp only [Option.some.injEq, Prod.mk.injEq] at h
      obtain ⟨f1, f2, _⟩ := write_result_cases k intr dev buf count p r hr
      have hit : (p : Int) / (dev.quantum * dev.qset) < 2 ^ 31 := by
        have := hfit.1
        simp only [decide_eq_true_eq, INT_MAX] at this
        omega
      have := ih r.k r.dev t1.1 t1.2.1 t1.2.2 ht1 (by rw [f1]; exact hq) (by rw [f2]; exact hs)
        (by rw [f1, f2]; exact hrep) (by rw [f1, f2]; exact hfit.2)
        (write_covered k intr dev buf count p r hr hq hs hrep hit hinv)
      rw [← h.1]; exact this

/-! ## Where the errors come from -/

theorem errno_distinct :
    (-ERESTARTSYS : Int) ≠ -EFAULT ∧ (-ERESTARTSYS : Int) ≠ -ENOMEM ∧
    (-ENOMEM : Int) ≠ -ERESTARTSYS ∧ (-ENOMEM : Int) ≠ -EFAULT ∧
    (-EFAULT : Int) ≠ -ERESTARTSYS ∧ (-EFAULT : Int) ≠ -ENOMEM ∧
    (0 : Int) ≠ -ERESTARTSYS ∧ (0 : Int) ≠ -EFAULT ∧ (0 : Int) ≠ -ENOMEM := by
  decide

theorem count_ne_errno (n : Nat) :
    (n : Int) ≠ -ERESTARTSYS ∧ (n : Int) ≠ -EFAULT ∧ (n : Int) ≠ -ENOMEM := by
  have := Int.ofNat_nonneg n
  unfold ERESTARTSYS EFAULT ENOMEM
  omega

theorem follow_walk_refused (steps : Nat) : ∀ (k : Kernel) (chain : List scull_qset) (i : Nat),
    (follow_walk k chain i steps).1 = none →
    k.calls < (follow_walk k chain i steps).2.2.calls ∧
    k.grant ((follow_walk k chain i steps).2.2.calls - 1) = false := by
  induction steps with
  | zero => intro k chain i h; simp [follow_walk] at h
  | succ n ih =>
    intro k chain i h
    simp only [follow_walk] at h ⊢
    split
    · rename_i hlt
      rw [if_pos hlt] at h
      exact ih _ _ _ h
    · rename_i hlt
      rw [if_neg hlt] at h
      split
      · rename_i hg
        rw [if_pos hg] at h
        obtain ⟨c1, c2⟩ := ih (kmalloc k 16).2 (chain ++ [empty_qset]) (i + 1) h
        rw [kmalloc_calls] at c1
        exact ⟨by omega, c2⟩
      · rename_i hg
        have hgr : k.grant k.calls = false := by simpa [kmalloc] using hg
        exact ⟨by rw [kmalloc_calls]; omega, by rw [kmalloc_calls]; simpa using hgr⟩

theorem scull_follow_grant (k : Kernel) (dev : scull_dev) (n : Int) :
    (scull_follow k dev n).2.2.grant = k.grant := by
  unfold scull_follow
  split
  · dsimp only
    split
    · dsimp only; rw [follow_walk_grant]; rfl
    · rfl
  · dsimp only; rw [follow_walk_grant]

/-- A `NULL` from `scull_follow` comes from a `kmalloc` call that the allocator refused, the
last one made. -/
theorem scull_follow_refused (k : Kernel) (dev : scull_dev) (n : Int)
    (h : (scull_follow k dev n).1 = none) :
    k.calls < (scull_follow k dev n).2.2.calls ∧
    k.grant ((scull_follow k dev n).2.2.calls - 1) = false := by
  unfold scull_follow at h ⊢
  split
  · rename_i he
    rw [he] at h
    dsimp only at h ⊢
    split
    · rename_i hg
      rw [if_pos hg] at h
      obtain ⟨c1, c2⟩ := follow_walk_refused (loop_count n) (kmalloc k 16).2 [empty_qset] 0 h
      rw [kmalloc_calls] at c1
      exact ⟨Nat.lt_of_succ_lt c1, c2⟩
    · rename_i hg
      have hgr : k.grant k.calls = false := by simpa [kmalloc] using hg
      exact ⟨by rw [kmalloc_calls]; omega, by rw [kmalloc_calls]; simpa using hgr⟩
  · rename_i x y he
    have h : (follow_walk k dev.data 0 (loop_count n)).1 = none := by
      rw [he] at h ⊢; exact h
    exact follow_walk_refused (loop_count n) k dev.data 0 h

theorem scull_follow_calls_le (k : Kernel) (dev : scull_dev) (n : Int) :
    k.calls ≤ (scull_follow k dev n).2.2.calls := by
  unfold scull_follow
  split
  · dsimp only
    split
    · have := (follow_walk_calls (loop_count n) (kmalloc k 16).2 [empty_qset] 0).1
      rw [kmalloc_calls] at this
      exact Nat.le_trans (Nat.le_succ k.calls) this
    · rw [kmalloc_calls]; omega
  · exact (follow_walk_calls (loop_count n) k dev.data 0).1

theorem write_slots_refused {k : Kernel} {qset : Int} {node : scull_qset}
    (h : (write_slots k qset node).1 = none) :
    (write_slots k qset node).2.calls = k.calls + 1 ∧ (write_slots k qset node).2.grant = k.grant ∧
    (k.grant k.calls = false ∨ qset < 0) := by
  unfold write_slots at h ⊢
  cases hd : node.data with
  | some arr => rw [hd] at h; simp at h
  | none =>
    rw [hd] at h
    dsimp only at h ⊢
    by_cases hg : (kmalloc k (qset * 8)).1 = true
    · rw [if_pos hg] at h; simp at h
    · rw [if_neg hg]
      refine ⟨rfl, rfl, ?_⟩
      simp only [kmalloc, Bool.and_eq_true, decide_eq_true_eq, not_and, Bool.not_eq_true] at hg
      by_cases hq : 0 ≤ qset * 8
      · exact Or.inl (hg hq)
      · exact Or.inr (by omega)

theorem write_block_refused {k : Kernel} {quantum : Int} {b : Option Block}
    (h : (write_block k quantum b).1 = none) :
    (write_block k quantum b).2.calls = k.calls + 1 ∧ (write_block k quantum b).2.grant = k.grant ∧
    (k.grant k.calls = false ∨ quantum < 0) := by
  unfold write_block at h ⊢
  cases b with
  | some blk => simp at h
  | none =>
    dsimp only at h ⊢
    by_cases hg : (kmalloc k quantum).1 = true
    · rw [if_pos hg] at h; simp at h
    · rw [if_neg hg]
      refine ⟨rfl, rfl, ?_⟩
      simp only [kmalloc, Bool.and_eq_true, decide_eq_true_eq, not_and, Bool.not_eq_true] at hg
      by_cases hq : 0 ≤ quantum
      · exact Or.inl (hg hq)
      · exact Or.inr (by omega)

theorem write_slots_calls (k : Kernel) (qset : Int) (node : scull_qset) :
    k.calls ≤ (write_slots k qset node).2.calls ∧ (write_slots k qset node).2.grant = k.grant := by
  unfold write_slots
  split
  · exact ⟨Nat.le_refl _, rfl⟩
  · dsimp only
    split
    · exact ⟨by rw [kmalloc_calls]; omega, rfl⟩
    · exact ⟨by rw [kmalloc_calls]; omega, rfl⟩

/-- What each error of `scull_write` comes from: `-ERESTARTSYS` from the interrupted lock
acquisition and nothing else, `-EFAULT` from a user buffer with fewer readable bytes than the
clipped count, `-ENOMEM` from a last `kmalloc` call that the allocator refused or whose size
was negative. -/
theorem write_error_causes (k : Kernel) (intr : Bool) (dev : scull_dev) (buf : List Byte)
    (count p : Nat) (r : WriteResult) (h : scull_write k intr dev buf count p = some r) :
    (r.ret = -ERESTARTSYS → intr = true) ∧
    (r.ret = -EFAULT → ∃ a, scull_write_addr dev.quantum dev.qset p = some a ∧
      buf.length < clip count dev.quantum a.q_pos) ∧
    (r.ret = -ENOMEM → k.calls < r.k.calls ∧
      (k.grant (r.k.calls - 1) = false ∨ dev.qset < 0 ∨ dev.quantum < 0)) := by
  unfold scull_write at h
  simp only [] at h
  split at h
  · rename_i hi
    cases h
    exact ⟨fun _ => hi, fun e => absurd e errno_distinct.1, fun e => absurd e errno_distinct.2.1⟩
  split at h
  · simp at h
  rename_i a ha
  have hfc := scull_follow_calls_le k dev a.item
  have hfg := scull_follow_grant k dev a.item
  split at h
  · rename_i hn
    cases h
    obtain ⟨c1, c2⟩ := scull_follow_refused k dev a.item hn
    exact ⟨fun e => absurd e errno_distinct.2.2.1, fun e => absurd e errno_distinct.2.2.2.1,
      fun _ => ⟨c1, Or.inl c2⟩⟩
  split at h
  · simp at h
  rename_i node _
  split at h
  · rename_i hn
    cases h
    obtain ⟨c1, c2, c3⟩ := write_slots_refused hn
    refine ⟨fun e => absurd e errno_distinct.2.2.1, fun e => absurd e errno_distinct.2.2.2.1, fun _ => ?_⟩
    dsimp only
    refine ⟨by omega, ?_⟩
    rcases c3 with c | c
    · rw [hfg] at c
      exact Or.inl (by rw [c1]; simpa using c)
    · exact Or.inr (Or.inl c)
  obtain ⟨sc, sg⟩ := write_slots_calls (scull_follow k dev a.item).2.2 dev.qset node
  split at h
  · simp at h
  split at h
  · rename_i hn
    cases h
    obtain ⟨c1, c2, c3⟩ := write_block_refused hn
    refine ⟨fun e => absurd e errno_distinct.2.2.1, fun e => absurd e errno_distinct.2.2.2.1, fun _ => ?_⟩
    dsimp only
    refine ⟨by omega, ?_⟩
    rcases c3 with c | c
    · rw [sg, hfg] at c
      exact Or.inl (by rw [c1]; simpa using c)
    · exact Or.inr (Or.inr c)
  split at h
  · simp at h
  · split at h
    · cases h
      exact ⟨fun e => absurd e errno_distinct.2.2.2.2.2.2.1,
        fun e => absurd e errno_distinct.2.2.2.2.2.2.2.1,
        fun e => absurd e errno_distinct.2.2.2.2.2.2.2.2⟩
    · simp at h
  · split at h
    · simp at h
    split at h
    · rename_i hc
      cases h
      refine ⟨fun e => absurd e errno_distinct.2.2.2.2.1, fun _ => ⟨a, ha, ?_⟩,
        fun e => absurd e errno_distinct.2.2.2.2.2.1⟩
      simp only [copy_from_user, ne_eq] at hc
      omega
    · cases h
      exact ⟨fun e => absurd e (count_ne_errno _).1, fun e => absurd e (count_ne_errno _).2.1,
        fun e => absurd e (count_ne_errno _).2.2⟩

/-- What each error of `scull_read` comes from: `-ERESTARTSYS` from the interrupted lock
acquisition and nothing else, `-EFAULT` from a user buffer with fewer writable bytes than the
count that was to be copied. -/
theorem read_error_causes (k : Kernel) (intr : Bool) (dev : scull_dev) (cap count p : Nat)
    (r : ReadResult) (h : scull_read k intr dev cap count p = some r) :
    (r.ret = -ERESTARTSYS → intr = true) ∧
    (r.ret = -EFAULT → ∃ a, scull_read_addr dev.quantum dev.qset p = some a ∧
      cap < clip (clamp count p dev.size) dev.quantum a.q_pos) := by
  unfold scull_read at h
  simp only [] at h
  split at h
  · rename_i hi
    cases h
    exact ⟨fun _ => hi, fun e => absurd e errno_distinct.1⟩
  split at h
  · cases h; exact ⟨fun e => absurd e errno_distinct.2.2.2.2.2.2.1,
      fun e => absurd e errno_distinct.2.2.2.2.2.2.2.1⟩
  split at h
  · simp at h
  rename_i a ha
  split at h
  · cases h; exact ⟨fun e => absurd e errno_distinct.2.2.2.2.2.2.1,
      fun e => absurd e errno_distinct.2.2.2.2.2.2.2.1⟩
  split at h
  · simp at h
  split at h
  · cases h; exact ⟨fun e => absurd e errno_distinct.2.2.2.2.2.2.1,
      fun e => absurd e errno_distinct.2.2.2.2.2.2.2.1⟩
  split at h
  · simp at h
  · cases h; exact ⟨fun e => absurd e errno_distinct.2.2.2.2.2.2.1,
      fun e => absurd e errno_distinct.2.2.2.2.2.2.2.1⟩
  · split at h
    · simp at h
    split at h
    · rename_i hc
      cases h
      refine ⟨fun e => absurd e errno_distinct.2.2.2.2.1, fun _ => ⟨a, ha, ?_⟩⟩
      simp only [copy_to_user, ne_eq] at hc
      omega
    · cases h
      exact ⟨fun e => absurd e (count_ne_errno _).1, fun e => absurd e (count_ne_errno _).2.1⟩

/-! ## The claims on errors, invariants and frames -/

/-- Claim C11 (open policy). `scull_open` returns 0 for every device and every flags value;
when `f_flags & O_ACCMODE` is `O_WRONLY` the device is the one `scull_trim` produces, and for
every other access mode, read-only and read-write among them, the device is unchanged. -/
theorem open_truncates_only_write_only (dq ds : Int) (k : Kernel) (dev : scull_dev)
    (f_flags : Nat) :
    (scull_open dq ds k dev f_flags).1 = 0 ∧
    (f_flags &&& O_ACCMODE = O_WRONLY →
      (scull_open dq ds k dev f_flags).2.1 = (scull_trim dq ds k dev).2.1) ∧
    (f_flags &&& O_ACCMODE ≠ O_WRONLY → (scull_open dq ds k dev f_flags).2 = (dev, k)) ∧
    (f_flags &&& O_ACCMODE = O_RDONLY ∨ f_flags &&& O_ACCMODE = O_RDWR →
      (scull_open dq ds k dev f_flags).2.1 = dev) := by
  have hm : f_flags &&& O_ACCMODE = f_flags % 4 := Nat.and_pow_two_sub_one_eq_mod f_flags 2
  rw [hm]
  unfold scull_open O_WRONLY O_RDONLY O_RDWR
  refine ⟨by split <;> rfl, fun h => by rw [if_pos h], fun h => by rw [if_neg h], fun h => ?_⟩
  rw [if_neg (by omega)]

/-- Claim C12 as stated fails: a write of 2 bytes at offset 0 whose user buffer has 1 readable
byte returns `-EFAULT` with `*f_pos` and the size unchanged, but the block that held "AB"
now starts with the copied byte followed by the zero fill of `copy_from_user`. -/
theorem fault_changes_existing_block :
    ∃ r, scull_write k0 false ⟨[⟨some [some [65, 66, 0, 0], none, none, none]⟩], 4, 4, 2⟩ [88] 2 0
        = some r ∧
      r.ret = -EFAULT ∧ r.f_pos = 0 ∧ r.dev.size = 2 ∧
      block_of [⟨some [some [65, 66, 0, 0], none, none, none]⟩] 0 0 = some [65, 66, 0, 0] ∧
      block_of r.dev.data 0 0 = some [88, 0, 0, 0] :=
  ⟨⟨-EFAULT, ⟨[⟨some [some [88, 0, 0, 0], none, none, none]⟩], 4, 4, 2⟩, 0, k0⟩, rfl, rfl, rfl, rfl,
    rfl, rfl⟩

/-- Claim C12, amended (errors leave position and size untouched). `scull_read` and
`scull_write` return `-ERESTARTSYS` exactly when the lock acquisition is interrupted,
`-EFAULT` only when the user buffer is too short for the copy, and `scull_write` returns
`-ENOMEM` only after a `kmalloc` call that was refused (or had a negative size). Whenever
one of them returns an error, `*f_pos` and the size are unchanged. After an error of
`scull_read`, and after `-ERESTARTSYS` or `-ENOMEM` of `scull_write`, every slot holds
the block it held before (no block is changed, none is added). After `-EFAULT` of
`scull_write` every block that existed before is unchanged except the destination block
of the copy. -/
theorem errors_keep_position_and_size :
    (∀ (k : Kernel) (intr : Bool) (dev : scull_dev) (cap count p : Nat) (r : ReadResult),
        scull_read k intr dev cap count p = some r →
        (intr = true ↔ r.ret = -ERESTARTSYS) ∧
        (r.ret = -EFAULT → ∃ a, scull_read_addr dev.quantum dev.qset p = some a ∧
          cap < clip (clamp count p dev.size) dev.quantum a.q_pos) ∧
        (r.ret < 0 →
          (r.ret = -ERESTARTSYS ∨ r.ret = -EFAULT) ∧ r.f_pos = p ∧ r.dev.size = dev.size ∧
          ∀ i s, block_of r.dev.data i s = block_of dev.data i s)) ∧
    (∀ (k : Kernel) (intr : Bool) (dev : scull_dev) (buf : List Byte) (count p : Nat)
        (r : WriteResult), scull_write k intr dev buf count p = some r →
        (intr = true ↔ r.ret = -ERESTARTSYS) ∧
        (r.ret = -ENOMEM → k.calls < r.k.calls ∧
          (k.grant (r.k.calls - 1) = false ∨ dev.qset < 0 ∨ dev.quantum < 0)) ∧
        (r.ret < 0 →
          (r.ret = -ERESTARTSYS ∨ r.ret = -ENOMEM ∨ r.ret = -EFAULT) ∧ r.f_pos = p ∧
          r.dev.size = dev.size ∧
          (r.ret ≠ -EFAULT → ∀ i s, block_of r.dev.data i s = block_of dev.data i s) ∧
          (r.ret = -EFAULT → ∃ a, scull_write_addr dev.quantum dev.qset p = some a ∧
            buf.length < clip count dev.quantum a.q_pos ∧
            ∀ i s blk, block_of dev.data i s = some blk →
              (i ≠ loop_count a.item ∨ s ≠ (toInt32 (a.s_pos + a.q_pos)).toNat) →
              block_of r.dev.data i s = some blk))) := by
  constructor
  · intro k intr dev cap count p r h
    obtain ⟨c1, c2⟩ := read_error_codes k intr dev cap count p r h
    obtain ⟨d1, d2⟩ := read_error_causes k intr dev cap count p r h
    refine ⟨⟨c1, d1⟩, d2, fun hr => ⟨c2 hr, read_error_pos k intr dev cap count p r h hr,
      (read_result_fields k intr dev cap count p r h).2.2, fun i s => ?_⟩⟩
    obtain ⟨j, hj⟩ := read_result_chain k intr dev cap count p r h
    rw [hj]
    exact block_of_append_empty _ _ _ _
  · intro k intr dev buf count p r h
    obtain ⟨c1, c2⟩ := write_error_codes k intr dev buf count p r h
    obtain ⟨d1, d2, d3⟩ := write_error_causes k intr dev buf count p r h
    refine ⟨⟨c1, d1⟩, d3, fun hr => ?_⟩
    obtain ⟨_, _, hc⟩ := write_result_cases k intr dev buf count p r h
    have hpz : r.f_pos = p ∧ r.dev.size = dev.size := by
      rcases hc with ⟨_, h1, h2⟩ | ⟨_, a, _, h1, _, _⟩
      · exact ⟨h1, h2⟩
      · rw [h1] at hr
        have := Int.ofNat_nonneg (clip count dev.quantum a.q_pos)
        omega
    refine ⟨c2 hr, hpz.1, hpz.2, fun hne i s => ?_, fun he => ?_⟩
    · rcases write_frame k intr dev buf count p r h with ⟨_, hd⟩ | ⟨a, _, hnr, _, _, hfr, _⟩
      · rw [hd]
      · rcases c2 hr with e | e | e
        · exact absurd e hnr
        · exact hfr i s (fun hn => absurd e hn)
        · exact absurd e hne
    · rcases write_frame k intr dev buf count p r h with ⟨e2, _⟩ | ⟨a, ha, _, _, _, hfr, hsp⟩
      · rw [he] at e2
        exact absurd e2 (by decide)
      · obtain ⟨a1, ha1, hshort⟩ := d2 he
        rw [ha] at ha1
        cases ha1
        refine ⟨a, ha, hshort, fun i s blk hb hc => ?_⟩
        by_cases hi : i = loop_count a.item
        · subst hi
          have hsd : s ≠ (toInt32 (a.s_pos + a.q_pos)).toNat := by
            rcases hc with c | c
            · exact absurd rfl c
            · exact c
          by_cases hs : s = a.s_pos.toNat
          · subst hs
            exact hsp blk hsd hb
          · rw [hfr _ s (fun _ => Or.inr ⟨hs, hsd⟩)]; exact hb
        · rw [hfr i s (fun _ => Or.inl hi)]; exact hb

/-- Claim C13 as stated fails: a write with the requested count 0 on a store with quantum 4
and qset 4 succeeds and returns 0. -/
theorem empty_write_returns_zero :
    ∃ r, scull_write k0 false (scull_trim 4 4 k0 scull_init_dev).2.1 [] 0 0 = some r ∧
      r.ret = 0 :=
  ⟨⟨0, ⟨[⟨some [some [0, 0, 0, 0], none, none, none]⟩], 4, 4, 0⟩, 0, ⟨k0.grant, k0.junk, 3, 0⟩⟩,
    rfl, rfl⟩

/-- Claim C13, amended (a successful write of at least one byte never returns 0). For positive
quantum and qset, every offset and every requested count of at least 1, a `scull_write`
that succeeds returns a strictly positive count. -/
theorem successful_write_is_positive (k : Kernel) (intr : Bool) (dev : scull_dev)
    (buf : List Byte) (count p : Nat) (r : WriteResult) (hq : 0 < dev.quantum)
    (hq2 : dev.quantum ≤ INT_MAX) (hs : 0 < dev.qset) (hc : 1 ≤ count)
    (h : scull_write k intr dev buf count p = some r) (hr : 0 ≤ r.ret) : 0 < r.ret := by
  have _ := hs
  have hq3 : dev.quantum < 2 ^ 31 := by unfold INT_MAX at hq2; omega
  obtain ⟨_, _, hcs⟩ := write_result_cases k intr dev buf count p r h
  rcases hcs with ⟨hneg, _⟩ | ⟨_, a, ha, h1, _, _⟩
  · omega
  · obtain ⟨q0, q1, _⟩ := write_addr_range hq hq3 ha
    have := clip_eq_min count q0 q1 hq3
    omega

/-- Witness of the amended claim C13: the write of "AB" at offset 0. -/
theorem successful_write_is_positive_witness : (0 : Int) < 2 :=
  successful_write_is_positive k0 false ⟨[], 4, 4, 0⟩ [65, 66] 2 0
    ⟨2, ⟨[⟨some [some [65, 66, 0, 0], none, none, none]⟩], 4, 4, 2⟩, 2, ⟨k0.grant, k0.junk, 3, 0⟩⟩
    (by decide) (by decide) (by decide) (by decide) rfl (by decide)

/-- Claim C14 (positive configuration invariant) fails on the code. The device that
`scull_init` sets up has quantum 0 and qset 0, an open in read-write mode leaves it so, and
the first write then divides by `itemsize = 0`. -/
theorem init_leaves_zero_quantum :
    scull_init_dev.quantum = 0 ∧ scull_init_dev.qset = 0 ∧
    (scull_open 4000 1000 k0 scull_init_dev O_RDWR).2.1 = scull_init_dev ∧
    scull_write_addr scull_init_dev.quantum scull_init_dev.qset 0 = none ∧
    scull_write k0 false (scull_open 4000 1000 k0 scull_init_dev O_RDWR).2.1 [65] 1 0 = none :=
  ⟨rfl, rfl, rfl, rfl, rfl⟩

/-- Witness of the amended claim C12: the faulting write of 2 bytes from a 1-byte buffer. -/
theorem errors_keep_position_and_size_witness :
    (-EFAULT = -ERESTARTSYS ∨ -EFAULT = -ENOMEM ∨ -EFAULT = -EFAULT) ∧ (0 : Nat) = 0 ∧
      (2 : Nat) = 2 :=
  ⟨((errors_keep_position_and_size.2 k0 false
      ⟨[⟨some [some [65, 66, 0, 0], none, none, none]⟩], 4, 4, 2⟩ [88] 2 0
      ⟨-EFAULT, ⟨[⟨some [some [88, 0, 0, 0], none, none, none]⟩], 4, 4, 2⟩, 0, k0⟩ rfl).2.2
      (by decide)).1,
   ((errors_keep_position_and_size.2 k0 false
      ⟨[⟨some [some [65, 66, 0, 0], none, none, none]⟩], 4, 4, 2⟩ [88] 2 0
      ⟨-EFAULT, ⟨[⟨some [some [88, 0, 0, 0], none, none, none]⟩], 4, 4, 2⟩, 0, k0⟩ rfl).2.2
      (by decide)).2.1,
   ((errors_keep_position_and_size.2 k0 false
      ⟨[⟨some [some [65, 66, 0, 0], none, none, none]⟩], 4, 4, 2⟩ [88] 2 0
      ⟨-EFAULT, ⟨[⟨some [some [88, 0, 0, 0], none, none, none]⟩], 4, 4, 2⟩, 0, k0⟩ rfl).2.2
      (by decide)).2.2.1⟩

/-- Claim C15 as stated fails: on a store truncated to quantum 4 and qset 4 the successful
write of 1 byte at offset 16 * 2^32 has the group index 2^32, which becomes 0 as an `int`;
afterwards the size is 16 * 2^32 + 1 while the chain has 1 group, which covers 16 bytes. -/
theorem size_beyond_chain_after_wrapped_item :
    (run k0 (scull_trim 4 4 k0 scull_init_dev).2.1 [Call.write false [65] 1 68719476736]).map
        (fun t => (t.1.size, t.1.data.length, t.1.qset, t.1.quantum, t.2.2)) =
      some (68719476737, 1, 4, 4, [⟨true, 68719476736, 1, []⟩]) ∧
    ¬ ((68719476737 : Int) ≤ 1 * (4 * 4)) := by
  decide

/-- Claim C15, amended (the size is covered by the chain). On a store just truncated to positive
defaults whose product fits a C `int`, after any sequence of read and write calls in which
every write offset `p` has `p / (quantum * qset)` representable in a C `int`, the size is at
most the number of groups times qset times quantum. -/
theorem size_covered_by_chain (dq ds : Int) (k : Kernel) (dev0 : scull_dev) (calls : List Call)
    (dev1 : scull_dev) (k1 : Kernel) (t : List Returned) (hq : 0 < dq) (hs : 0 < ds)
    (hrep : dq * ds ≤ INT_MAX) (hfit : offsets_fit dq ds calls = true)
    (h : run (scull_trim dq ds k dev0).2.2 (scull_trim dq ds k dev0).2.1 calls
      = some (dev1, k1, t)) :
    (dev1.size : Int) ≤ dev1.data.length * (dev1.qset * dev1.quantum) ∧
    dev1.qset = ds ∧ dev1.quantum = dq := by
  have hrep2 : dq * ds < 2 ^ 31 := by unfold INT_MAX at hrep; omega
  obtain ⟨_, e1, e2⟩ := run_size calls _ _ dev1 k1 t h
  refine ⟨run_covered calls _ _ dev1 k1 t h hq hs hrep2 hfit ?_, e2, e1⟩
  simp [scull_trim]

/-- Witness of the amended claim C15: two writes and a read with quantum 4 and qset 4. -/
theorem size_covered_by_chain_witness :
    (((⟨[⟨some [some [65, 66, 0, 0], some [67, 68, 0, 0], none, none]⟩], 4, 4, 6⟩ :
        scull_dev).size : Nat) : Int) ≤
      (⟨[⟨some [some [65, 66, 0, 0], some [67, 68, 0, 0], none, none]⟩], 4, 4, 6⟩ :
        scull_dev).data.length *
      ((⟨[⟨some [some [65, 66, 0, 0], some [67, 68, 0, 0], none, none]⟩], 4, 4, 6⟩ :
        scull_dev).qset *
       (⟨[⟨some [some [65, 66, 0, 0], some [67, 68, 0, 0], none, none]⟩], 4, 4, 6⟩ :
        scull_dev).quantum) ∧
    (⟨[⟨some [some [65, 66, 0, 0], some [67, 68, 0, 0], none, none]⟩], 4, 4, 6⟩ :
        scull_dev).qset = 4 ∧
    (⟨[⟨some [some [65, 66, 0, 0], some [67, 68, 0, 0], none, none]⟩], 4, 4, 6⟩ :
        scull_dev).quantum = 4 :=
  size_covered_by_chain 4 4 k0 scull_init_dev
    [Call.write false [65, 66] 2 0, Call.write false [67, 68] 2 4, Call.read false 2 2 0]
    ⟨[⟨some [some [65, 66, 0, 0], some [67, 68, 0, 0], none, none]⟩], 4, 4, 6⟩
    ⟨k0.grant, k0.junk, 4, 0⟩ [⟨true, 0, 2, []⟩, ⟨true, 4, 2, []⟩, ⟨false, 0, 2, [65, 66]⟩]
    (by decide) (by decide) (by decide) (by decide) rfl

/-- Claim C17 (traversal). For `0 ≤ n`, `scull_follow (dev, n)` only appends empty groups to the
chain and keeps size, quantum and qset. When no allocation it makes is refused it returns
group `n`, and the chain then has `max (old length, n + 1)` groups, the old ones unchanged
and in order, the new ones without slot array. When an allocation is refused it returns
`NULL`, and the groups linked so far stay linked. -/
theorem follow_reaches_nth_group (k : Kernel) (dev : scull_dev) (n : Int) (h0 : 0 ≤ n)
    (h1 : n ≤ INT_MAX) :
    (∃ j, (scull_follow k dev n).2.1 =
      { dev with data := dev.data ++ List.replicate j empty_qset }) ∧
    (attempted_ok k (scull_follow k dev n).2.2 →
      (scull_follow k dev n).1 = some n.toNat ∧
      (scull_follow k dev n).2.1.data = pad_chain dev.data (n.toNat + 1) ∧
      (scull_follow k dev n).2.1.data.length = max dev.data.length (n.toNat + 1)) ∧
    (¬ attempted_ok k (scull_follow k dev n).2.2 → (scull_follow k dev n).1 = none) := by
  have hl : loop_count n = n.toNat := loop_count_of_nonneg n h0 (by unfold INT_MAX at h1; omega)
  obtain ⟨c1, c2⟩ := scull_follow_calls k dev n
  refine ⟨scull_follow_appends k dev n, fun hok => ?_, fun hno => ?_⟩
  · rcases hf : (scull_follow k dev n).1 with _ | j
    · exact absurd hok (c1 hf)
    · obtain ⟨e1, e2⟩ := scull_follow_some k dev n j hf
      rw [hl] at e1 e2
      rw [e1, e2]
      exact ⟨rfl, rfl, pad_chain_length _ _⟩
  · by_contra hne
    exact hno (c2 hne)

/-- Witness of claim C17: the third group of a chain of one group. -/
theorem follow_reaches_nth_group_witness :
    (∃ j, (scull_follow k0 ⟨[⟨some [some [65, 66, 0, 0], none, none, none]⟩], 4, 4, 2⟩ 2).2.1 =
      { (⟨[⟨some [some [65, 66, 0, 0], none, none, none]⟩], 4, 4, 2⟩ : scull_dev) with
        data := [⟨some [some [65, 66, 0, 0], none, none, none]⟩] ++
          List.replicate j empty_qset }) ∧
    (attempted_ok k0
        (scull_follow k0 ⟨[⟨some [some [65, 66, 0, 0], none, none, none]⟩], 4, 4, 2⟩ 2).2.2 →
      (scull_follow k0 ⟨[⟨some [some [65, 66, 0, 0], none, none, none]⟩], 4, 4, 2⟩ 2).1
        = some (2 : Int).toNat ∧
      (scull_follow k0 ⟨[⟨some [some [65, 66, 0, 0], none, none, none]⟩], 4, 4, 2⟩ 2).2.1.data
        = pad_chain [⟨some [some [65, 66, 0, 0], none, none, none]⟩] ((2 : Int).toNat + 1) ∧
      (scull_follow k0 ⟨[⟨some [some [65, 66, 0, 0], none, none, none]⟩], 4, 4, 2⟩ 2).2.1.data.length
        = max ([⟨some [some [65, 66, 0, 0], none, none, none]⟩] : List scull_qset).length
          ((2 : Int).toNat + 1)) ∧
    (¬ attempted_ok k0
        (scull_follow k0 ⟨[⟨some [some [65, 66, 0, 0], none, none, none]⟩], 4, 4, 2⟩ 2).2.2 →
      (scull_follow k0 ⟨[⟨some [some [65, 66, 0, 0], none, none, none]⟩], 4, 4, 2⟩ 2).1 = none) :=
  follow_reaches_nth_group k0 ⟨[⟨some [some [65, 66, 0, 0], none, none, none]⟩], 4, 4, 2⟩ 2
    (by decide) (by decide)

/-- Claim C18 (read is non-mutating on stored data). Whatever `scull_read` returns, the device
afterwards is the old one with empty groups appended to the chain: size, quantum, qset, every
existing group with its slot array and every block are unchanged, and every slot holds the
block it held before, so no block and no slot array is allocated. -/
theorem read_only_appends_empty_groups (k : Kernel) (intr : Bool) (dev : scull_dev)
    (cap count p : Nat) (r : ReadResult) (h : scull_read k intr dev cap count p = some r) :
    (∃ j, r.dev = { dev with data := dev.data ++ List.replicate j empty_qset }) ∧
    r.dev.size = dev.size ∧ r.dev.quantum = dev.quantum ∧ r.dev.qset = dev.qset ∧
    ∀ i s, block_of r.dev.data i s = block_of dev.data i s := by
  obtain ⟨j, hj⟩ := read_result_chain k intr dev cap count p r h
  obtain ⟨f1, f2, f3⟩ := read_result_fields k intr dev cap count p r h
  refine ⟨⟨j, hj⟩, f3, f1, f2, fun i s => ?_⟩
  rw [hj]
  exact block_of_append_empty _ _ _ _

/-- Witness of claim C18: a read in the second group of a store that has one group. -/
theorem read_only_appends_empty_groups_witness :
    (∃ j, (⟨[⟨some [some [65, 66, 0, 0], none, none, none]⟩, empty_qset], 4, 4, 20⟩ : scull_dev) =
      { (⟨[⟨some [some [65, 66, 0, 0], none, none, none]⟩], 4, 4, 20⟩ : scull_dev) with
        data := [⟨some [some [65, 66, 0, 0], none, none, none]⟩] ++
          List.replicate j empty_qset }) ∧
    (20 : Nat) = 20 ∧ (4 : Int) = 4 ∧ (4 : Int) = 4 ∧
    ∀ i s, block_of [⟨some [some [65, 66, 0, 0], none, none, none]⟩, empty_qset] i s =
      block_of [⟨some [some [65, 66, 0, 0], none, none, none]⟩] i s :=
  read_only_appends_empty_groups k0 false
    ⟨[⟨some [some [65, 66, 0, 0], none, none, none]⟩], 4, 4, 20⟩ 2 2 16
    ⟨0, [], ⟨[⟨some [some [65, 66, 0, 0], none, none, none]⟩, empty_qset], 4, 4, 20⟩, 16,
      ⟨k0.grant, k0.junk, 1, 0⟩⟩ rfl

/-- Claim C19 (write touches only its own block) fails on the code. On the store that holds
"AB" in slot 0 and "CD" in slot 1, the successful write of "X" at offset 1, whose address
is (group 0, slot 0, byte 1), changes the block of slot 1 from "CD" to "XD" and leaves
the block of slot 0 alone. -/
theorem write_changes_neighbour_block :
    scull_write_addr 4 4 1 = some ⟨0, 0, 1⟩ ∧
    ∃ r, scull_write k0 false
        ⟨[⟨some [some [65, 66, 0, 0], some [67, 68, 0, 0], none, none]⟩], 4, 4, 6⟩ [88] 1 1
        = some r ∧
      r.ret = 1 ∧
      block_of [⟨some [some [65, 66, 0, 0], some [67, 68, 0, 0], none, none]⟩] 0 1
        = some [67, 68, 0, 0] ∧
      block_of r.dev.data 0 1 = some [88, 68, 0, 0] ∧
      block_of r.dev.data 0 0 = some [65, 66, 0, 0] :=
  ⟨by decide,
    ⟨1, ⟨[⟨some [some [65, 66, 0, 0], some [88, 68, 0, 0], none, none]⟩], 4, 4, 6⟩, 2, k0⟩,
    rfl, rfl, rfl, rfl, rfl⟩

/-- Claim C20 (slot indexing stays in bounds) fails on the code. On a store just truncated to
quantum 4 and qset 4, the write of 1 byte at offset 15 has the address (group 0, slot 3,
byte 3) and subscripts the 4-slot array with 3 + 3 = 6; the write of 1 byte at offset 1
copies to slot 0 + 1, which holds no block. Both writes have no defined result. -/
theorem write_subscript_out_of_bounds :
    scull_write_addr 4 4 15 = some ⟨0, 3, 3⟩ ∧ toInt32 (3 + 3) = 6 ∧
    slot ((List.replicate 4 none).set 3 (some [0, 0, 0, 0])) 6 = none ∧
    scull_write k0 false (scull_trim 4 4 k0 scull_init_dev).2.1 [88] 1 15 = none ∧
    scull_write_addr 4 4 1 = some ⟨0, 0, 1⟩ ∧ toInt32 (0 + 1) = 1 ∧
    slot ((List.replicate 4 none).set 0 (some [0, 0, 0, 0])) 1 = some none ∧
    scull_write k0 false (scull_trim 4 4 k0 scull_init_dev).2.1 [88] 1 1 = none :=
  ⟨by decide, by decide, by decide, rfl, by decide, by decide, by decide, rfl⟩

end Scull
